import Mathlib

/-!
# agentruntime: JSON-RPC transport, wire translation and session layer

A shallow embedding of

* `jsonrpc/server.go`   : the error mapper and the intercept / after hooks of `newRPCServer`,
* `internal/mylog/logger.go` : the level of the logger that `NewLogger` builds,
* `network/jsonrpc_service.go` : the handlers `GetMessages`, `GetThreads`, `AddMessage`,
* `internal/db/context.go` : `OpenSession` and `WithSession`,

together with the parts of the Go runtime they rest on (error chains, `encoding/json`).
-/

namespace AgentRuntime

/-! ## Go errors -/

/-- Modelled from the spec: the sentinel values of the repository's `errors` package, one per
kind of the failure taxonomy (`errors.ErrInvalidParams`, `errors.ErrInvalidRequest`,
`errors.ErrInternal`, `errors.ErrNotFound`, `errors.ErrNoMore`). -/
inductive Sentinel where
  | ErrInvalidParams
  | ErrInvalidRequest
  | ErrInternal
  | ErrNotFound
  | ErrNoMore
  deriving DecidableEq, Repr

/-- Modelled from the spec: the text of a sentinel; the package that declares the sentinels is
not among the sources, the texts are the taxonomy's names of the kinds. -/
def Sentinel.text : Sentinel → String
  | .ErrInvalidParams => "invalid params"
  | .ErrInvalidRequest => "invalid request"
  | .ErrInternal => "internal"
  | .ErrNotFound => "not found"
  | .ErrNoMore => "no more"

/-- The wire error `json2.Error`: `Code`, `Message`, `Data`. `Data` is an `interface{}` that the
mapper never reads; it is kept as an optional opaque text. -/
structure Json2Error where
  Code : Int
  Message : String
  Data : Option String
  deriving DecidableEq, Repr

/-- The wire code `json2.E_INVALID_REQ`. -/
def E_INVALID_REQ : Int := -32600
/-- The wire code `json2.E_BAD_PARAMS`. -/
def E_BAD_PARAMS : Int := -32602
/-- The wire code `json2.E_INTERNAL`. -/
def E_INTERNAL : Int := -32603
/-- The wire code `json2.E_SERVER`. -/
def E_SERVER : Int := -32000

/-- A non-nil Go `error` value, as far as `errors.Is`, `errors.As` and `Error()` can see it:
a sentinel, a wire error (`*json2.Error`), any other leaf, a wrapper around one cause
(`Unwrap() error`: what `errors.Wrapf` and a format with one `%w` build) or around two
(`Unwrap() []error`: what `errors.Join` and a format with two `%w` build). A wrapper holds its
own text, the string its `Error()` returns: how the text is made from the texts of the causes
differs from one wrapper type to the next. -/
inductive GoError where
  | sentinel (s : Sentinel)
  | wire (e : Json2Error)
  | leaf (msg : String)
  | wrap (text : String) (cause : GoError)
  | join (text : String) (first second : GoError)
  deriving DecidableEq, Repr

namespace GoError

/-- The method `Error()`: the text of the value. -/
def Error : GoError → String
  | sentinel s => s.text
  | wire e => e.Message
  | leaf msg => msg
  | wrap text _ => text
  | join text _ _ => text

/-- The function `errors.Is(err, target)` for a sentinel target: a pre-order walk of the error
tree, comparing each node with the target. -/
def Is : GoError → Sentinel → Bool
  | sentinel s, t => decide (s = t)
  | wire _, _ => false
  | leaf _, _ => false
  | wrap _ cause, t => cause.Is t
  | join _ a b, t => a.Is t || b.Is t

/-- The function `errors.As(err, &e)` for `e` of type `*json2.Error`: the first wire error of the
pre-order walk of the error tree, if there is one. -/
def As : GoError → Option Json2Error
  | sentinel _ => none
  | wire e => some e
  | leaf _ => none
  | wrap _ cause => cause.As
  | join _ a b => match a.As with
    | some e => some e
    | none => b.As

/-- All wire errors of the error tree, in the order of the pre-order walk. -/
def wireErrors : GoError → List Json2Error
  | sentinel _ => []
  | wire e => [e]
  | leaf _ => []
  | wrap _ cause => cause.wireErrors
  | join _ a b => a.wireErrors ++ b.wireErrors

end GoError

/-- Modelled from the spec: `errors.Wrapf(err, text)` of the repository's `errors` package
(not among the sources) on a non-nil error, the only use the handlers make of it: a wrapper
holding `err` as its cause, whose text is `text`, a colon and the text of `err`. -/
def Wrapf (err : GoError) (text : String) : GoError :=
  GoError.wrap (text ++ ": " ++ err.Error) err

/-- The function `errors.Join` of the Go standard library on two non-nil errors: a wrapper
around both, whose text is their texts on lines of their own. -/
def Join (first second : GoError) : GoError :=
  GoError.join (first.Error ++ "\n" ++ second.Error) first second

/-- The way a call of a handler ends: it returns its `error` (nil, here `none`, on success), or
it panics (a nil pointer dereference) and returns nothing. -/
inductive Outcome where
  | returned (err : Option GoError)
  | panicked
  deriving DecidableEq, Repr

/-! ## Log records -/

/-- The value of a log attribute. -/
inductive LogValue where
  | str (s : String)
  | int (i : Int)
  | duration (d : Int)
  | err (e : GoError)
  deriving DecidableEq, Repr

/-- The levels of `slog` that the code uses: `slog.LevelDebug`, `slog.LevelInfo`,
`slog.LevelWarn`, `slog.LevelError`. -/
inductive Level where
  | LevelDebug
  | LevelInfo
  | LevelWarn
  | LevelError
  deriving DecidableEq, Repr

/-- One record handed to the `slog` logger: level, message, group and attributes. -/
structure LogEntry where
  level : Level
  msg : String
  group : Option String
  attrs : List (String × LogValue)
  deriving DecidableEq, Repr

/-! ## `internal/mylog/logger.go` -/

/-- The error mapper registered with the codec in `newRPCServer`. It returns the records it logs
and the mapped error. `mylog.Err(err)` is the attribute `error` holding the error. -/
def errorMapper (err : Option GoError) : List LogEntry × Option Json2Error :=
  match err with
  | none => ([], none)
  | some err =>
    let log := [LogEntry.mk .LevelError "[JSON-RPC] error" none [("error", LogValue.err err)]]
    match err.As with
    | some e => (log, some e)
    | none =>
      let Message := err.Error
      let Code :=
        if err.Is .ErrInvalidParams then E_BAD_PARAMS
        else if err.Is .ErrInternal then E_INTERNAL
        else if err.Is .ErrInvalidRequest then E_INVALID_REQ
        else if err.Is .ErrNoMore || err.Is .ErrNotFound then E_SERVER
        else E_INTERNAL
      (log, some { Code := Code, Message := Message, Data := none })

/-- The table of the spec from the kind of a failure to its wire code: InvalidParams to
bad-parameters, InvalidRequest to invalid-request, Internal to internal-error, NotFound and
NoMore to generic-server-error. It follows the words of the spec, to be compared with
`errorMapper`. -/
def kindCode : Sentinel → Int
  | .ErrInvalidParams => E_BAD_PARAMS
  | .ErrInvalidRequest => E_INVALID_REQ
  | .ErrInternal => E_INTERNAL
  | .ErrNotFound => E_SERVER
  | .ErrNoMore => E_SERVER

/-! ## `encoding/json` -/

/-- The conversions between a finite `float64` and its text that `encoding/json` takes from
`strconv`: `format` is what `Marshal` writes for a number (`strconv.AppendFloat` with the
shortest digits that read back exactly), `parse` is `strconv.ParseFloat(s, 64)` (none:
the text is out of range). `N` stands for the finite `float64` values. -/
class GoFloat (N : Type) where
  format : N → List Char
  parse : List Char → Option N

/-- A value that `json.Unmarshal` stores in an `any`, and that `json.Marshal` reads from one:
nil, a bool, a float64, a string, a `[]any` or a `map[string]any`. A map is held as the list of
its entries in increasing key order, the order in which `Marshal` writes them. -/
inductive JVal (N : Type) where
  | null
  | bool (b : Bool)
  | num (n : N)
  | str (s : String)
  | arr (xs : List (JVal N))
  | obj (ms : List (String × JVal N))

/-- The double quote. -/
def chQuote : Char := Char.ofNat 34
/-- The backslash. -/
def chBackslash : Char := Char.ofNat 92
/-- The opening brace. -/
def chLBrace : Char := Char.ofNat 123
/-- The closing brace. -/
def chRBrace : Char := Char.ofNat 125

/-- The digit of `"0123456789abcdef"` at index `n`. -/
def hexDigit (n : Nat) : Char :=
  if n < 10 then Char.ofNat (48 + n) else Char.ofNat (87 + n)

/-- The table `htmlSafeSet` of `encoding/json` on an ASCII character: printable (from the space
on) and none of the double quote, the backslash, `<`, `>`, `&`. -/
def htmlSafe (c : Char) : Bool :=
  decide (32 ≤ c.toNat) && !(c.toNat == 34) && !(c.toNat == 92) && !(c.toNat == 60)
    && !(c.toNat == 62) && !(c.toNat == 38)

/-- What `appendString` (with HTML escaping, as `Marshal` calls it) writes for one character. -/
def encodeChar (c : Char) : List Char :=
  if c.toNat < 128 then
    if htmlSafe c then [c]
    else if c.toNat = 92 ∨ c.toNat = 34 then [chBackslash, c]
    else if c.toNat = 8 then [chBackslash, 'b']
    else if c.toNat = 12 then [chBackslash, 'f']
    else if c.toNat = 10 then [chBackslash, 'n']
    else if c.toNat = 13 then [chBackslash, 'r']
    else if c.toNat = 9 then [chBackslash, 't']
    else [chBackslash, 'u', '0', '0', hexDigit (c.toNat / 16), hexDigit (c.toNat % 16)]
  else if c.toNat = 8232 ∨ c.toNat = 8233 then
    [chBackslash, 'u', '2', '0', '2', hexDigit (c.toNat % 16)]
  else [c]

/-- The characters between the quotes of an encoded string. -/
def encodeChars : List Char → List Char
  | [] => []
  | c :: cs => encodeChar c ++ encodeChars cs

/-- The function `appendString`: the quoted, escaped text of a string. -/
def encodeString (s : String) : List Char :=
  chQuote :: (encodeChars s.data ++ [chQuote])

namespace JVal
variable {N : Type} [GoFloat N]

mutual
/-- The text `json.Marshal` writes for a value. -/
def encode : JVal N → List Char
  | null => ['n', 'u', 'l', 'l']
  | bool true => ['t', 'r', 'u', 'e']
  | bool false => ['f', 'a', 'l', 's', 'e']
  | num n => GoFloat.format n
  | str s => encodeString s
  | arr [] => ['[', ']']
  | arr (x :: xs) => '[' :: (encode x ++ (encodeTail xs ++ [']']))
  | obj [] => [chLBrace, chRBrace]
  | obj ((k, x) :: ms) =>
    chLBrace :: (encodeString k ++ (':' :: (encode x ++ (encodeMembersTail ms ++ [chRBrace]))))
/-- The elements of an array after the first, each behind a comma. -/
def encodeTail : List (JVal N) → List Char
  | [] => []
  | x :: xs => ',' :: (encode x ++ encodeTail xs)
/-- The entries of a map after the first, each behind a comma. -/
def encodeMembersTail : List (String × JVal N) → List Char
  | [] => []
  | (k, x) :: ms => ',' :: (encodeString k ++ (':' :: (encode x ++ encodeMembersTail ms)))
end

mutual
/-- The number of arrays and maps nested around the innermost value, itself included. -/
def depth : JVal N → Nat
  | arr xs => depthList xs + 1
  | obj ms => depthMembers ms + 1
  | _ => 0
/-- The greatest depth among the elements of an array. -/
def depthList : List (JVal N) → Nat
  | [] => 0
  | x :: xs => max (depth x) (depthList xs)
/-- The greatest depth among the values of a map. -/
def depthMembers : List (String × JVal N) → Nat
  | [] => 0
  | (_, x) :: ms => max (depth x) (depthMembers ms)
end

end JVal

/-- The order in which `Marshal` sorts the keys of a map: the first differing character
decides, by its code point (the order of the bytes of UTF-8), and a proper prefix comes
first. -/
def keyLt : List Char → List Char → Bool
  | [], [] => false
  | [], _ :: _ => true
  | _ :: _, [] => false
  | a :: as, b :: bs =>
    if a.toNat < b.toNat then true
    else if a.toNat = b.toNat then keyLt as bs
    else false

namespace JVal
variable {N : Type} [GoFloat N]

mutual
/-- The value is the representation of a Go value: in every map the keys increase strictly. -/
def canonical : JVal N → Bool
  | arr xs => canonicalList xs
  | obj [] => true
  | obj ((k, x) :: ms) => canonical x && canonicalMembers k ms
  | _ => true
/-- Every element is canonical. -/
def canonicalList : List (JVal N) → Bool
  | [] => true
  | x :: xs => canonical x && canonicalList xs
/-- Every value is canonical and the keys increase strictly, the first one coming after `k`. -/
def canonicalMembers (k : String) : List (String × JVal N) → Bool
  | [] => true
  | (k2, x) :: ms => keyLt k.data k2.data && (canonical x && canonicalMembers k2 ms)
end

end JVal

/-! ### Decoding -/

/-- The white space of the JSON scanner (`isSpace`): space, tab, carriage return, line feed. -/
def isSpace (c : Char) : Bool :=
  c.toNat == 32 || c.toNat == 9 || c.toNat == 13 || c.toNat == 10

/-- The rest of the input from its first character that is no white space. -/
def skipSpace : List Char → List Char
  | [] => []
  | c :: cs => if isSpace c then skipSpace cs else c :: cs

/-- The states of the scanner inside a number (`stateNeg`, `state0`, `state1`, `stateDot`,
`stateDot0`, `stateE`, `stateESign`, `stateE0`), after `begin`, the state before its first
character. -/
inductive NumState where
  | begin
  | neg
  | zero
  | int
  | dot
  | dot0
  | e
  | eSign
  | e0
  deriving DecidableEq, Repr

/-- One step of the scanner inside a number; none: the character does not continue the
number. -/
def numStep (st : NumState) (c : Char) : Option NumState :=
  let digit := decide (48 ≤ c.toNat ∧ c.toNat ≤ 57)
  let digit19 := decide (49 ≤ c.toNat ∧ c.toNat ≤ 57)
  let isE := c.toNat == 101 || c.toNat == 69
  match st with
  | .begin =>
    if c.toNat == 45 then some .neg else if c.toNat == 48 then some .zero
    else if digit19 then some .int else none
  | .neg => if c.toNat == 48 then some .zero else if digit19 then some .int else none
  | .zero => if c.toNat == 46 then some .dot else if isE then some .e else none
  | .int =>
    if digit then some .int else if c.toNat == 46 then some .dot
    else if isE then some .e else none
  | .dot => if digit then some .dot0 else none
  | .dot0 => if digit then some .dot0 else if isE then some .e else none
  | .e => if c.toNat == 43 || c.toNat == 45 then some .eSign else if digit then some .e0 else none
  | .eSign => if digit then some .e0 else none
  | .e0 => if digit then some .e0 else none

/-- The states in which a number may end. -/
def NumState.accepting : NumState → Bool
  | .zero => true
  | .int => true
  | .dot0 => true
  | .e0 => true
  | _ => false

/-- The scanner over a number: the longest run of characters that continue the number and what
follows it; none when the run ends where a number may not end. -/
def scanNum : NumState → List Char → Option (List Char × List Char)
  | st, [] => if st.accepting then some ([], []) else none
  | st, c :: cs =>
    match numStep st c with
    | some st2 => (scanNum st2 cs).map (fun p => (c :: p.1, p.2))
    | none => if st.accepting then some ([], c :: cs) else none

/-- The value of a hexadecimal digit. -/
def hexVal (c : Char) : Option Nat :=
  if 48 ≤ c.toNat ∧ c.toNat ≤ 57 then some (c.toNat - 48)
  else if 97 ≤ c.toNat ∧ c.toNat ≤ 102 then some (c.toNat - 87)
  else if 65 ≤ c.toNat ∧ c.toNat ≤ 70 then some (c.toNat - 55)
  else none

/-- The function `getu4`: the number written by a backslash, a `u` and four hexadecimal digits
at the head of the input. -/
def getu4 : List Char → Option Nat
  | b :: u :: h1 :: h2 :: h3 :: h4 :: _ =>
    if b = chBackslash ∧ u = 'u' then
      match hexVal h1, hexVal h2, hexVal h3, hexVal h4 with
      | some a, some b, some c, some d => some (a * 4096 + b * 256 + c * 16 + d)
      | _, _, _, _ => none
    else none
  | _ => none

/-- The replacement character U+FFFD. -/
def chReplacement : Char := Char.ofNat 65533

/-- The function `utf16.DecodeRune`: the character of a surrogate pair, U+FFFD when the two
numbers are no pair. -/
def decodeSurrogates (r1 r2 : Nat) : Char :=
  if 55296 ≤ r1 ∧ r1 < 56320 ∧ 56320 ≤ r2 ∧ r2 < 57344 then
    Char.ofNat ((r1 - 55296) * 1024 + (r2 - 56320) + 65536)
  else chReplacement

/-- The character of a one-letter escape. -/
def simpleEscape (c : Char) : Option Char :=
  if c.toNat = 34 ∨ c.toNat = 92 ∨ c.toNat = 47 then some c
  else if c = 'b' then some (Char.ofNat 8)
  else if c = 'f' then some (Char.ofNat 12)
  else if c = 'n' then some (Char.ofNat 10)
  else if c = 'r' then some (Char.ofNat 13)
  else if c = 't' then some (Char.ofNat 9)
  else none

/-- The scanner and `unquote` over the inside of a string literal, the opening quote already
read: the decoded characters up to the closing quote, and what follows it. None: the literal is
not closed, holds a control character or a wrong escape. -/
def unquoteBody : Nat → List Char → Option (List Char × List Char)
  | 0, _ => none
  | _ + 1, [] => none
  | fuel + 1, c :: cs =>
    if c = chQuote then some ([], cs)
    else if c = chBackslash then
      match cs with
      | [] => none
      | x :: rest =>
        if x = 'u' then
          match getu4 (c :: cs) with
          | none => none
          | some rr =>
            let rest1 := rest.drop 4
            if 55296 ≤ rr ∧ rr < 57344 then
              match getu4 rest1 with
              | some rr1 =>
                if decodeSurrogates rr rr1 ≠ chReplacement then
                  (unquoteBody fuel (rest1.drop 6)).map
                    (fun p => (decodeSurrogates rr rr1 :: p.1, p.2))
                else (unquoteBody fuel rest1).map (fun p => (chReplacement :: p.1, p.2))
              | none => (unquoteBody fuel rest1).map (fun p => (chReplacement :: p.1, p.2))
            else (unquoteBody fuel rest1).map (fun p => (Char.ofNat rr :: p.1, p.2))
        else
          match simpleEscape x with
          | some ch => (unquoteBody fuel rest).map (fun p => (ch :: p.1, p.2))
          | none => none
    else if c.toNat < 32 then none
    else (unquoteBody fuel cs).map (fun p => (c :: p.1, p.2))

/-- The assignment `m[key] = value` of the decoder, on the entries in increasing key order: the
entry replaces the one of the same key, or goes to its place. -/
def mapInsert {N : Type} (k : String) (v : JVal N) :
    List (String × JVal N) → List (String × JVal N)
  | [] => [(k, v)]
  | (k2, v2) :: ms =>
    if k = k2 then (k, v) :: ms
    else if keyLt k.data k2.data then (k, v) :: (k2, v2) :: ms
    else (k2, v2) :: mapInsert k v ms

/-- The map built from the entries of an object in the order of the text. -/
def buildMap {N : Type} (ms : List (String × JVal N)) : List (String × JVal N) :=
  ms.foldl (fun m p => mapInsert p.1 p.2 m) []

/-- The constant `maxNestingDepth` of the scanner: the greatest number of arrays and objects
open at once. -/
def maxNestingDepth : Nat := 10000

mutual
/-- The decoder at the first character of a value (`valueInterface`): the value and what follows
it. `depth` is the number of arrays and objects that may still be opened. The first argument
is an allowance of calls: every call reads a character before it calls on, so the allowance
`Unmarshal` hands over, the length of the input plus one, is never used up
(`parseValue_allowance`). -/
def parseValue {N : Type} [GoFloat N] : Nat → Nat → List Char → Option (JVal N × List Char)
  | 0, _, _ => none
  | _ + 1, _, [] => none
  | fuel + 1, depth, c :: cs =>
    if c = chQuote then
      (unquoteBody fuel cs).map (fun p => (JVal.str (String.mk p.1), p.2))
    else if c = '[' then
      match depth with
      | 0 => none
      | depth1 + 1 =>
        match skipSpace cs with
        | [] => none
        | c2 :: cs2 =>
          if c2 = ']' then some (JVal.arr [], cs2)
          else
            match parseValue fuel depth1 (c2 :: cs2) with
            | none => none
            | some (v, rest) =>
              (parseTail fuel depth1 (skipSpace rest)).map (fun p => (JVal.arr (v :: p.1), p.2))
    else if c = chLBrace then
      match depth with
      | 0 => none
      | depth1 + 1 =>
        match skipSpace cs with
        | [] => none
        | c2 :: cs2 =>
          if c2 = chRBrace then some (JVal.obj [], cs2)
          else
            (parseMembers fuel depth1 (c2 :: cs2)).map (fun p => (JVal.obj (buildMap p.1), p.2))
    else if c = 'n' then
      match cs with
      | 'u' :: 'l' :: 'l' :: rest => some (JVal.null, rest)
      | _ => none
    else if c = 't' then
      match cs with
      | 'r' :: 'u' :: 'e' :: rest => some (JVal.bool true, rest)
      | _ => none
    else if c = 'f' then
      match cs with
      | 'a' :: 'l' :: 's' :: 'e' :: rest => some (JVal.bool false, rest)
      | _ => none
    else
      match scanNum .begin (c :: cs) with
      | none => none
      | some (tok, rest) => (GoFloat.parse tok).map (fun n => (JVal.num n, rest))
/-- The decoder behind an element of an array: the elements that follow, up to the closing
bracket. -/
def parseTail {N : Type} [GoFloat N] : Nat → Nat → List Char →
    Option (List (JVal N) × List Char)
  | 0, _, _ => none
  | _ + 1, _, [] => none
  | fuel + 1, depth, c :: cs =>
    if c = ']' then some ([], cs)
    else if c = ',' then
      match parseValue fuel depth (skipSpace cs) with
      | none => none
      | some (v, rest) => (parseTail fuel depth (skipSpace rest)).map (fun p => (v :: p.1, p.2))
    else none
/-- The decoder at the key of an entry of an object: this entry and those that follow, up to
the closing brace. -/
def parseMembers {N : Type} [GoFloat N] : Nat → Nat → List Char →
    Option (List (String × JVal N) × List Char)
  | 0, _, _ => none
  | _ + 1, _, [] => none
  | fuel + 1, depth, c :: cs =>
    if c = chQuote then
      match unquoteBody fuel cs with
      | none => none
      | some (key, rest) =>
        match skipSpace rest with
        | [] => none
        | c2 :: cs2 =>
          if c2 = ':' then
            match parseValue fuel depth (skipSpace cs2) with
            | none => none
            | some (v, rest2) =>
              match skipSpace rest2 with
              | [] => none
              | c3 :: cs3 =>
                if c3 = chRBrace then some ([(String.mk key, v)], cs3)
                else if c3 = ',' then
                  (parseMembers fuel depth (skipSpace cs3)).map
                    (fun p => ((String.mk key, v) :: p.1, p.2))
                else none
          else none
    else none
end

/-- The text of a value as `json.Marshal` returns it. On the values of `JVal` it has no error
(the errors of `Marshal` are for values that are no JSON: channels, functions, NaN). -/
def Marshal {N : Type} [GoFloat N] (v : JVal N) : Except GoError String :=
  .ok (String.mk v.encode)

/-- The function `json.Unmarshal` into an `any`: one value between white space, nothing after
it. Every failure is an error of `encoding/json` (a `*json.SyntaxError`, or a
`*json.UnmarshalTypeError` for a number out of range): a leaf that is neither a sentinel nor a
wire error; its text is not modelled. -/
def Unmarshal {N : Type} [GoFloat N] (data : String) : Except GoError (JVal N) :=
  match parseValue (data.data.length + 1) maxNestingDepth (skipSpace data.data) with
  | none => .error (GoError.leaf "json: cannot unmarshal")
  | some (v, rest) =>
    match skipSpace rest with
    | [] => .ok v
    | _ :: _ => .error (GoError.leaf "json: cannot unmarshal")

/-- The numbers a format of `strconv` and its reader must agree on for `encoding/json` to read
back what it wrote: what `format` writes is a JSON number from its first character to its last,
and `parse` reads it back as the same `float64`. -/
def GoFloat.Lawful (N : Type) [GoFloat N] : Prop :=
  ∀ x : N, scanNum .begin (GoFloat.format x) = some (GoFloat.format x, []) ∧
    GoFloat.parse (GoFloat.format x) = some x

/-! ## Integer conversions -/

/-- The conversion `uint32(x)` of a `uint`. -/
def toUint32 (x : Nat) : Nat := x % 2 ^ 32

/-! ## Entities and wire records -/

/-- The record `entity.MessageContentToolCall`. -/
structure MessageContentToolCall (N : Type) where
  Name : String
  Arguments : JVal N
  Result : JVal N

/-- The record `entity.MessageContent`. -/
structure MessageContent (N : Type) where
  Text : String
  ToolCalls : List (MessageContentToolCall N)
  Error : String

/-- The record `entity.Message`: the fields of `gorm.Model` the handlers read (`ID`, a `uint`,
and the two instants), the owning thread, the sender and the content. -/
structure EntityMessage (N : Type) where
  ID : Nat
  CreatedAt : Int
  UpdatedAt : Int
  ThreadID : Nat
  User : String
  Content : MessageContent N

/-- Modelled from the spec: the record `entity.Thread` (its declaration is not among the
sources), with the fields `GetThreads` reads: id, instants, instruction, participant names. -/
structure EntityThread where
  ID : Nat
  CreatedAt : Int
  UpdatedAt : Int
  Instruction : String
  ParticipantNames : List String
  deriving DecidableEq, Repr

/-- The wire record `GetMessagesRequest`; the three numbers are `uint32`. -/
structure GetMessagesRequest where
  ThreadId : Nat
  Order : String
  Limit : Nat
  Cursor : Nat
  deriving DecidableEq, Repr

/-- The wire record `MessageToolCall`. -/
structure MessageToolCall where
  Name : String
  Arguments : String
  Result : String
  deriving DecidableEq, Repr

/-- The wire record `Message`. -/
structure Message where
  Id : Nat
  Content : String
  CreatedAt : Int
  UpdatedAt : Int
  Sender : String
  ToolCalls : List MessageToolCall
  deriving DecidableEq, Repr

/-- The wire record `GetMessagesResponse`. -/
structure GetMessagesResponse where
  Messages : List Message
  NextCursor : Nat
  deriving DecidableEq, Repr

/-- The wire record `Thread`. -/
structure Thread where
  Id : Nat
  CreatedAt : Int
  UpdatedAt : Int
  Instruction : String
  Participants : List String
  deriving DecidableEq, Repr

/-- The wire record `GetThreadsRequest`; both numbers are `uint32`. -/
structure GetThreadsRequest where
  Cursor : Nat
  Limit : Nat
  deriving DecidableEq, Repr

/-- The wire record `GetThreadsResponse`. -/
structure GetThreadsResponse where
  Threads : List Thread
  NextCursor : Nat
  deriving DecidableEq, Repr

/-- The wire record `AddMessageRequest`. `ToolCalls` is a `[]*MessageToolCall`: an element is a
pointer, `none` is the nil pointer, which the decoder of the request stores for a JSON `null`
in the array `tool_calls`. -/
structure AddMessageRequest where
  ThreadId : Nat
  Sender : String
  Content : String
  ToolCalls : List (Option MessageToolCall)
  deriving DecidableEq, Repr

/-- The wire record `AddMessageResponse`. -/
structure AddMessageResponse where
  MessageId : Nat
  deriving DecidableEq, Repr

/-! ## `network/jsonrpc_service.go` -/

section Handlers
variable {N : Type} [GoFloat N]

/-- The inner loop of `GetMessages` over the tool calls of one message: each one marshalled and
appended to `res.ToolCalls`. -/
def marshalToolCalls : List (MessageContentToolCall N) → List MessageToolCall →
    Except GoError (List MessageToolCall)
  | [], acc => .ok acc
  | toolCall :: rest, acc =>
    match Marshal toolCall.Arguments with
    | .error err => .error (Wrapf err "failed to marshal tool call arguments")
    | .ok args =>
      match Marshal toolCall.Result with
      | .error err => .error (Wrapf err "failed to marshal tool call result")
      | .ok result =>
        marshalToolCalls rest
          (acc ++ [{ Name := toolCall.Name, Arguments := args, Result := result }])

/-- The body of the loop of `GetMessages` over the messages of a page, up to the wire record
`res` it appends. -/
def toWireMessage (msg : EntityMessage N) : Except GoError Message :=
  let content := msg.Content
  match marshalToolCalls content.ToolCalls [] with
  | .error err => .error err
  | .ok toolCalls =>
    .ok { Id := toUint32 msg.ID, Content := content.Text, CreatedAt := msg.CreatedAt,
          UpdatedAt := msg.UpdatedAt, Sender := msg.User, ToolCalls := toolCalls }

/-- The loop of `GetMessages` over the messages of one page: every message is appended to the
reply and the cursor moves to its id. Returns the error (if any), the cursor and the reply. -/
def appendPage : List (EntityMessage N) → Nat → GetMessagesResponse →
    Option GoError × Nat × GetMessagesResponse
  | [], cursor, reply => (none, cursor, reply)
  | msg :: rest, cursor, reply =>
    match toWireMessage msg with
    | .error err => (some err, cursor, reply)
    | .ok res => appendPage rest msg.ID { reply with Messages := reply.Messages ++ [res] }

/-- The `for` loop of `GetMessages`. `getMessages` is the method of the thread manager (thread
id, order, cursor, limit). The loop has no bound of its own; `fuel` is the number of turns it may
take, none stands for a loop still running after them. Next to the error and the reply the
result lists the pages the manager returned, one per call, in the order of the calls. -/
def getMessagesLoop
    (getMessages : Nat → String → Nat → Nat → Except GoError (List (EntityMessage N)))
    (args : GetMessagesRequest) (order : String) :
    Nat → Nat → GetMessagesResponse →
    Option (Option GoError × GetMessagesResponse × List (List (EntityMessage N)))
  | 0, _, _ => none
  | fuel + 1, cursor, reply =>
    match getMessages args.ThreadId order cursor args.Limit with
    | .error err => some (some err, reply, [])
    | .ok messages =>
      if messages.length = 0 then
        some (none, { reply with NextCursor := toUint32 cursor }, [messages])
      else
        match appendPage messages cursor reply with
        | (some err, _, reply2) => some (some err, reply2, [messages])
        | (none, cursor2, reply2) =>
          (getMessagesLoop getMessages args order fuel cursor2 reply2).map
            (fun r => (r.1, r.2.1, messages :: r.2.2))

/-- The order `GetMessages` hands to the manager: `"DESC"` for the request order `"latest"`,
`"ASC"` for every other. -/
def sqlOrder (Order : String) : String :=
  if Order = "latest" then "DESC" else "ASC"

/-- The handler `JsonRpcService.GetMessages`, with the pages the manager returned. -/
def GetMessagesTrace
    (getMessages : Nat → String → Nat → Nat → Except GoError (List (EntityMessage N)))
    (fuel : Nat) (args : GetMessagesRequest) (reply : GetMessagesResponse) :
    Option (Option GoError × GetMessagesResponse × List (List (EntityMessage N))) :=
  let cursor := args.Cursor
  let order := sqlOrder args.Order
  getMessagesLoop getMessages args order fuel cursor reply

/-- The handler `JsonRpcService.GetMessages`: the error it returns and the reply it leaves. -/
def GetMessages
    (getMessages : Nat → String → Nat → Nat → Except GoError (List (EntityMessage N)))
    (fuel : Nat) (args : GetMessagesRequest) (reply : GetMessagesResponse) :
    Option (Option GoError × GetMessagesResponse) :=
  (GetMessagesTrace getMessages fuel args reply).map (fun r => (r.1, r.2.1))

/-- The wire record `GetThreads` builds for one thread. -/
def toWireThread (thread : EntityThread) : Thread :=
  { Id := toUint32 thread.ID, CreatedAt := thread.CreatedAt, UpdatedAt := thread.UpdatedAt,
    Instruction := thread.Instruction,
    Participants := thread.ParticipantNames.foldl (fun acc participant => acc ++ [participant]) [] }

/-- The handler `JsonRpcService.GetThreads`. `getThreads` is the method of the thread manager
(cursor, limit). -/
def GetThreads (getThreads : Nat → Nat → Except GoError (List EntityThread))
    (args : GetThreadsRequest) (reply : GetThreadsResponse) :
    Option GoError × GetThreadsResponse :=
  match getThreads args.Cursor args.Limit with
  | .error err => (some err, reply)
  | .ok threads =>
    let reply1 : GetThreadsResponse :=
      { reply with Threads := threads.foldl (fun acc thread => acc ++ [toWireThread thread]) [] }
    match threads.getLast? with
    | some last => (none, { reply1 with NextCursor := toUint32 last.ID })
    | none => (none, reply1)

/-- The loop of `AddMessage` over the tool calls of the request: each one decoded and appended
to `content.ToolCalls`. The loop reads `toolCall.Arguments` without a test of the pointer: on a
nil element the handler panics. The loop ends with the tool calls decoded, or with the way the
handler ends. -/
def unmarshalToolCalls : List (Option MessageToolCall) → List (MessageContentToolCall N) →
    Except Outcome (List (MessageContentToolCall N))
  | [], acc => .ok acc
  | none :: _, _ => .error Outcome.panicked
  | some toolCall :: rest, acc =>
    match (Unmarshal toolCall.Arguments : Except GoError (JVal N)) with
    | .error err =>
      .error (Outcome.returned (some (Wrapf err "failed to unmarshal tool call arguments")))
    | .ok args =>
      match (Unmarshal toolCall.Result : Except GoError (JVal N)) with
      | .error err =>
        .error (Outcome.returned (some (Wrapf err "failed to unmarshal tool call result")))
      | .ok result =>
        unmarshalToolCalls rest
          (acc ++ [{ Name := toolCall.Name, Arguments := args, Result := result }])

/-- The handler `JsonRpcService.AddMessage`. `addMessage` is the method of the thread manager
(thread id, sender, content) over the state `σ` of the thread store. The result is the way the
handler ends, the reply and the store as it leaves them. -/
def AddMessage {σ : Type}
    (addMessage : σ → Nat → String → MessageContent N → Except GoError (EntityMessage N) × σ)
    (store : σ) (args : AddMessageRequest) (reply : AddMessageResponse) :
    (Outcome × AddMessageResponse) × σ :=
  match unmarshalToolCalls args.ToolCalls [] with
  | .error out => ((out, reply), store)
  | .ok toolCalls =>
    let content : MessageContent N := { Text := args.Content, ToolCalls := toolCalls, Error := "" }
    match addMessage store args.ThreadId args.Sender content with
    | (.error err, store2) => ((Outcome.returned (some err), reply), store2)
    | (.ok msg, store2) =>
      ((Outcome.returned none, { reply with MessageId := toUint32 msg.ID }), store2)

end Handlers

/-! ## Contexts -/

/-- A `context.Context`, as far as the transport and the session layer read it: the value under
`startTimeCtxKey` and the value under `sessionCtxKey`. Each key is private to its package, so
no other code reads or writes the two values. A session is a handle, named by a number. -/
structure Context where
  startTime : Option Int
  session : Option Nat
  deriving DecidableEq, Repr

/-! ## `jsonrpc/server.go`: the hooks -/

/-- The database as the session layer acts on it: the number of handles derived so far (the
handles are named `0`, `1`, ... in the order of their derivation) and the statements issued,
each with the handle it was issued on, oldest first. -/
structure DBState where
  handles : Nat
  statements : List (Nat × String)
  deriving DecidableEq, Repr

/-- The schema-selection statement `fmt.Sprintf("SET search_path TO %s", schema)`. -/
def schemaSelection (schema : String) : String := "SET search_path TO " ++ schema

/-- The function `WithSession`. `schema` is the package variable of that name (declared outside
the sources). `db.WithContext(ctx)` derives a new handle, `tx.Exec` issues a statement on it. -/
def WithSession (schema : String) (ctx : Context) (_db : Nat) (st : DBState) :
    (Context × Nat) × DBState :=
  let tx := st.handles
  let st1 : DBState := { st with handles := st.handles + 1 }
  let st2 : DBState := { st1 with statements := st1.statements ++ [(tx, schemaSelection schema)] }
  (({ ctx with session := some tx }, tx), st2)

/-- The function `OpenSession`. -/
def OpenSession (schema : String) (ctx : Context) (db : Nat) (st : DBState) :
    (Context × Nat) × DBState :=
  match ctx.session with
  | some tx => ((ctx, tx), st)
  | none => WithSession schema ctx db st

/-- A chain of `n` calls of `OpenSession`, each on the context the call before it returned:
the handles returned, in order, the last context and the database. -/
def openChain (schema : String) (db : Nat) : Nat → Context → DBState →
    List Nat × Context × DBState
  | 0, ctx, st => ([], ctx, st)
  | n + 1, ctx, st =>
    let r := OpenSession schema ctx db st
    let rest := openChain schema db n r.1.1 r.2
    (r.1.2 :: rest.1, rest.2)

/-- The statements issued on handle `h`, oldest first. -/
def DBState.on (st : DBState) (h : Nat) : List String :=
  (st.statements.filter (fun p => p.1 = h)).map Prod.snd

/-- What holds of a context and a database that the session layer alone has bound sessions in:
every handle a statement was issued on has been derived, and the session of the context, if it
has one, is a derived handle whose first statement is the schema selection, issued once. -/
def SessionInv (schema : String) (ctx : Context) (st : DBState) : Prop :=
  (∀ p ∈ st.statements, p.1 < st.handles) ∧
  ∀ h, ctx.session = some h →
    h < st.handles ∧ (st.on h).head? = some (schemaSelection schema) ∧
      (st.on h).count (schemaSelection schema) = 1

/-! ## Reading the encoded text -/

/-- The input ends the number before it: it is empty, or its first character continues no
number. -/
def EndsNumber (rest : List Char) : Prop :=
  ∀ c cs, rest = c :: cs → ∀ st, numStep st c = none

/-- The character can be the first of an encoded value: no white space, no closing bracket,
no closing brace. -/
def StartsValue (c : Char) : Prop :=
  isSpace c = false ∧ c ≠ Char.ofNat 93 ∧ c ≠ chRBrace

/-! ## Reading the replies -/

/-- The id lies strictly after the cursor in the direction of the order: below it for
`"DESC"`, above it for every other order. -/
def lyingAfter (order : String) (cursor id : Nat) : Bool :=
  if order = "DESC" then decide (id < cursor) else decide (cursor < id)

/-- The wire record `r` is the one `GetMessages` builds for the stored message `m`: the id
converted with `uint32`, the sender, the text and the two instants. -/
def WireOf {N : Type} (m : EntityMessage N) (r : Message) : Prop :=
  r.Id = m.ID % 2 ^ 32 ∧ r.Sender = m.User ∧ r.Content = m.Content.Text ∧
    r.CreatedAt = m.CreatedAt ∧ r.UpdatedAt = m.UpdatedAt

/-! ## Inputs on which the model is run -/

/-- The decimal digits of `n` in front of `acc`; `fuel` bounds their number. -/
def decimalDigits : Nat → Nat → List Char → List Char
  | 0, _, acc => acc
  | fuel + 1, n, acc =>
    if n < 10 then Char.ofNat (48 + n) :: acc
    else decimalDigits fuel (n / 10) (Char.ofNat (48 + n % 10) :: acc)

/-- The number a list of decimal digits writes. -/
def decimalValue (s : List Char) : Nat :=
  s.foldl (fun acc c => 10 * acc + (c.toNat - 48)) 0

/-- The character is a decimal digit. -/
def isDigit (c : Char) : Bool := decide (48 ≤ c.toNat ∧ c.toNat ≤ 57)

/-- The `float64` values that are natural numbers, written in decimal (what `strconv` writes
for them below `1e21`) and read back from decimal digits only: a number format on which the
JSON functions can be run. -/
instance natFloat : GoFloat Nat where
  format n := decimalDigits (n + 1) n []
  parse s := if s ≠ [] ∧ s.all isDigit = true then some (decimalValue s) else none

/-- The value `null` inside `n` arrays of one element. -/
def nested {N : Type} : Nat → JVal N
  | 0 => JVal.null
  | n + 1 => JVal.arr [nested n]

/-- The arguments of a tool call: a map with a string and an array. -/
def sampleArguments : JVal Nat :=
  JVal.obj [("city", JVal.str "Seoul"),
            ("days", JVal.arr [JVal.num 3, JVal.null, JVal.bool true])]

/-- A tool call with its arguments and its result. -/
def sampleToolCall : MessageContentToolCall Nat :=
  { Name := "get_weather", Arguments := sampleArguments,
    Result := JVal.obj [("summary", JVal.str "5 < 7 & dry"), ("temperature", JVal.num 21)] }

/-- Modelled from the spec: the store of the thread manager (package `thread`, not among the
sources): the ids of the threads and the messages, oldest first. -/
structure ThreadStore (N : Type) where
  threads : List Nat
  messages : List (EntityMessage N)

/-- Modelled from the spec: the method `AddMessage` of the thread manager: a new message with
an assigned id, appended to the thread; NotFound when the thread does not exist. -/
def specAddMessage {N : Type} (store : ThreadStore N) (threadId : Nat) (sender : String)
    (content : MessageContent N) : Except GoError (EntityMessage N) × ThreadStore N :=
  if threadId ∈ store.threads then
    let msg : EntityMessage N :=
      { ID := store.messages.length + 1, CreatedAt := 0, UpdatedAt := 0, ThreadID := threadId,
        User := sender, Content := content }
    (.ok msg, { store with messages := store.messages ++ [msg] })
  else (.error (Wrapf (GoError.sentinel .ErrNotFound) "thread"), store)

/-- A store with thread 1 and no message. -/
def oneThreadStore : ThreadStore Nat := { threads := [1], messages := [] }

/-- A method of the thread manager with a count of its calls next to its store: every call
adds one to the count. -/
def countCalls {σ N : Type}
    (addMessage : σ → Nat → String → MessageContent N → Except GoError (EntityMessage N) × σ)
    (st : σ × Nat) (threadId : Nat) (sender : String) (content : MessageContent N) :
    Except GoError (EntityMessage N) × (σ × Nat) :=
  ((addMessage st.1 threadId sender content).1,
    ((addMessage st.1 threadId sender content).2, st.2 + 1))

/-- A request with two tool calls: the first has arguments and a result that are JSON text,
the second has the empty string as its result. -/
def secondCallMalformedRequest : AddMessageRequest :=
  { ThreadId := 1, Sender := "alice", Content := "weather?",
    ToolCalls := [some { Name := "get_weather", Arguments := "[3]", Result := "null" },
                  some { Name := "book_hotel", Arguments := "null", Result := "" }] }

/-- A request with two tool calls, what the decoder of the request builds from an array
`tool_calls` of `null` and one tool call: the first is the nil pointer, the second has the
empty string as its result. -/
def nullThenMalformedRequest : AddMessageRequest :=
  { ThreadId := 1, Sender := "alice", Content := "weather?",
    ToolCalls := [none, some { Name := "book_hotel", Arguments := "null", Result := "" }] }

/-- A request whose one tool call has arguments and a result that are JSON text. -/
def wellFormedRequest : AddMessageRequest :=
  { ThreadId := 1, Sender := "alice", Content := "weather?",
    ToolCalls := [some { Name := "get_weather", Arguments := "[3]", Result := "null" }] }

/-- The insertion of a message into a list ordered by ascending id. -/
def insertById {N : Type} (m : EntityMessage N) : List (EntityMessage N) → List (EntityMessage N)
  | [] => [m]
  | x :: xs => if m.ID ≤ x.ID then m :: x :: xs else x :: insertById m xs

/-- The messages ordered by ascending id. -/
def sortById {N : Type} : List (EntityMessage N) → List (EntityMessage N)
  | [] => []
  | x :: xs => insertById x (sortById xs)

/-- Modelled from the spec: the method `GetMessages` of the thread manager (package `thread`,
not among the sources) over the stored messages: one page of the messages of the thread,
ordered ascending or descending (`"DESC"`) by id, bounded by `limit`, starting strictly after
`cursor` in the chosen direction. -/
def specGetMessages {N : Type} (store : List (EntityMessage N)) (threadId : Nat)
    (order : String) (cursor limit : Nat) : Except GoError (List (EntityMessage N)) :=
  let own := sortById (store.filter (fun m => m.ThreadID = threadId))
  if order = "DESC" then .ok ((own.reverse.filter (fun m => m.ID < cursor)).take limit)
  else .ok ((own.filter (fun m => cursor < m.ID)).take limit)

/-- A message without tool calls. -/
def textMessage (id threadId : Nat) (user text : String) : EntityMessage Nat :=
  { ID := id, CreatedAt := 0, UpdatedAt := 0, ThreadID := threadId, User := user,
    Content := { Text := text, ToolCalls := [], Error := "" } }

/-- The reply the server allocates for a call of `GetMessages`: the zero value. -/
def emptyMessagesReply : GetMessagesResponse := { Messages := [], NextCursor := 0 }

/-- The reply the server allocates for a call of `GetThreads`: the zero value. -/
def emptyThreadsReply : GetThreadsResponse := { Threads := [], NextCursor := 0 }

/-- The reply the server allocates for a call of `AddMessage`: the zero value. -/
def emptyAddReply : AddMessageResponse := { MessageId := 0 }


/-- A not-found failure as a component returns it: the sentinel under a wrapper. -/
def threadNotFound : GoError :=
  Wrapf (GoError.sentinel .ErrNotFound) "thread 7"

/-- An error that matches `errors.ErrInvalidParams` and carries a wire error deeper in its
tree. -/
def invalidParamsWithWireError : GoError :=
  Join (GoError.sentinel .ErrInvalidParams)
    (Wrapf (GoError.wire { Code := -32001, Message := "busy", Data := none }) "upstream")

/-- A database with its base handle (handle `0`) derived and no statement issued. -/
def freshDB : DBState := { handles := 1, statements := [] }

/-- A context without start time and without session. -/
def emptyContext : Context := { startTime := none, session := none }

/-- A thread whose id does not fit 32 bits. -/
def bigThread : EntityThread :=
  { ID := 4294967303, CreatedAt := 0, UpdatedAt := 0, Instruction := "plan trip",
    ParticipantNames := ["alice", "bob"] }

/-- Two threads with small ids. -/
def twoThreads : List EntityThread :=
  [{ ID := 1, CreatedAt := 0, UpdatedAt := 0, Instruction := "plan trip",
     ParticipantNames := ["alice", "bob"] },
   { ID := 2, CreatedAt := 5, UpdatedAt := 6, Instruction := "book hotel",
     ParticipantNames := [] }]

/-- Three messages of thread 1, with ids 1, 2 and 3. -/
def threeMessages : List (EntityMessage Nat) :=
  [textMessage 1 1 "alice" "hi bob", textMessage 2 1 "bob" "hi alice",
   textMessage 3 1 "alice" "shall we start"]

/-- The scenario of the spec: thread 1 holds one message, id 1, from alice. -/
def scenarioStore : List (EntityMessage Nat) := [textMessage 1 1 "alice" "hi bob"]

/-- A store whose one message has an id that does not fit 32 bits. -/
def bigIdStore : List (EntityMessage Nat) := [textMessage 4294967297 1 "alice" "hi bob"]

/-- The reply of the scenario of the spec: one message, id 1, `next_cursor` 1. -/
def scenarioReply : GetMessagesResponse :=
  { Messages := [{ Id := 1, Content := "hi bob", CreatedAt := 0, UpdatedAt := 0,
                   Sender := "alice", ToolCalls := [] }],
    NextCursor := 1 }

/-! ## Theorems -/

/-! ### The error mapper -/

theorem GoError.as_eq_head_wireErrors (err : GoError) : err.As = err.wireErrors.head? := by
  induction err with
  | sentinel s => rfl
  | wire e => rfl
  | leaf msg => rfl
  | wrap text cause ih => simpa [GoError.As, GoError.wireErrors] using ih
  | join text a b iha ihb =>
    simp only [GoError.As, GoError.wireErrors, List.head?_append]
    rw [iha, ihb]
    cases a.wireErrors.head? <;> rfl

/-- The order of the tests of the error mapper: a non-nil error without a wire error maps to a
wire error with the text of the error and the code of the FIRST kind it matches in the order
InvalidParams (bad-parameters), Internal (internal-error), InvalidRequest (invalid-request),
NoMore or NotFound (generic-server-error); an error of none of these kinds maps to
internal-error. -/
theorem errorMapper_first_match (err : GoError) (h : err.As = none) :
    ∃ w, (errorMapper (some err)).2 = some w ∧ w.Message = err.Error ∧
      (err.Is .ErrInvalidParams = true → w.Code = E_BAD_PARAMS) ∧
      (err.Is .ErrInvalidParams = false → err.Is .ErrInternal = true → w.Code = E_INTERNAL) ∧
      (err.Is .ErrInvalidParams = false → err.Is .ErrInternal = false →
        err.Is .ErrInvalidRequest = true → w.Code = E_INVALID_REQ) ∧
      (err.Is .ErrInvalidParams = false → err.Is .ErrInternal = false →
        err.Is .ErrInvalidRequest = false →
        (err.Is .ErrNotFound = true ∨ err.Is .ErrNoMore = true) → w.Code = E_SERVER) ∧
      (err.Is .ErrInvalidParams = false → err.Is .ErrInternal = false →
        err.Is .ErrInvalidRequest = false → err.Is .ErrNotFound = false →
        err.Is .ErrNoMore = false → w.Code = E_INTERNAL) := by
  simp only [errorMapper, h]
  refine ⟨_, rfl, rfl, ?_, ?_, ?_, ?_, ?_⟩
  · intro h1; simp [h1]
  · intro h1 h2; simp [h1, h2]
  · intro h1 h2 h3; simp [h1, h2, h3]
  · intro h1 h2 h3 h4
    rcases h4 with h4 | h4 <;> simp [h1, h2, h3, h4]
  · intro h1 h2 h3 h4 h5; simp [h1, h2, h3, h4, h5]

/-- C1: a nil error maps to nil; a non-nil error that carries no wire error, and whose kinds
agree on the code of the table, maps to a wire error with the text of the error and the code
of the table: an InvalidParams error to bad-parameters, an InvalidRequest error to
invalid-request, an Internal error to internal-error, a NotFound or NoMore error to
generic-server-error, and an error of none of these kinds to internal-error. -/
theorem errorMapper_code_table (err : GoError) (h : err.As = none)
    (hagree : ∀ k1 k2, err.Is k1 = true → err.Is k2 = true → kindCode k1 = kindCode k2) :
    (errorMapper none).2 = none ∧
    ∃ w, (errorMapper (some err)).2 = some w ∧ w.Message = err.Error ∧ w.Data = none ∧
      (err.Is .ErrInvalidParams = true → w.Code = E_BAD_PARAMS) ∧
      (err.Is .ErrInvalidRequest = true → w.Code = E_INVALID_REQ) ∧
      (err.Is .ErrInternal = true → w.Code = E_INTERNAL) ∧
      (err.Is .ErrNotFound = true → w.Code = E_SERVER) ∧
      (err.Is .ErrNoMore = true → w.Code = E_SERVER) ∧
      (∀ k, err.Is k = true → w.Code = kindCode k) ∧
      ((∀ k, err.Is k = false) → w.Code = E_INTERNAL) := by
  refine ⟨rfl, ?_⟩
  have key : ∀ k1 k2, kindCode k1 ≠ kindCode k2 → err.Is k1 = true → err.Is k2 = false := by
    intro k1 k2 hne h1
    cases h2 : err.Is k2 with
    | false => rfl
    | true => exact absurd (hagree k1 k2 h1 h2) hne
  have hP : err.Is .ErrInvalidParams = true →
      (errorMapper (some err)).2
        = some { Code := E_BAD_PARAMS, Message := err.Error, Data := none } := by
    intro hk; simp [errorMapper, h, hk]
  have hR : err.Is .ErrInvalidRequest = true →
      (errorMapper (some err)).2
        = some { Code := E_INVALID_REQ, Message := err.Error, Data := none } := by
    intro hk
    have h1 := key .ErrInvalidRequest .ErrInvalidParams (by decide) hk
    have h2 := key .ErrInvalidRequest .ErrInternal (by decide) hk
    simp [errorMapper, h, hk, h1, h2]
  have hI : err.Is .ErrInternal = true →
      (errorMapper (some err)).2
        = some { Code := E_INTERNAL, Message := err.Error, Data := none } := by
    intro hk
    have h1 := key .ErrInternal .ErrInvalidParams (by decide) hk
    simp [errorMapper, h, hk, h1]
  have hF : err.Is .ErrNotFound = true →
      (errorMapper (some err)).2
        = some { Code := E_SERVER, Message := err.Error, Data := none } := by
    intro hk
    have h1 := key .ErrNotFound .ErrInvalidParams (by decide) hk
    have h2 := key .ErrNotFound .ErrInternal (by decide) hk
    have h3 := key .ErrNotFound .ErrInvalidRequest (by decide) hk
    simp [errorMapper, h, hk, h1, h2, h3]
  have hM : err.Is .ErrNoMore = true →
      (errorMapper (some err)).2
        = some { Code := E_SERVER, Message := err.Error, Data := none } := by
    intro hk
    have h1 := key .ErrNoMore .ErrInvalidParams (by decide) hk
    have h2 := key .ErrNoMore .ErrInternal (by decide) hk
    have h3 := key .ErrNoMore .ErrInvalidRequest (by decide) hk
    simp [errorMapper, h, hk, h1, h2, h3]
  have hw : ∃ w, (errorMapper (some err)).2 = some w ∧ w.Message = err.Error ∧
      w.Data = none := by
    simp only [errorMapper, h]
    exact ⟨_, rfl, rfl, rfl⟩
  obtain ⟨w, hw, hmsg, hdata⟩ := hw
  have code : ∀ c : Int,
      (errorMapper (some err)).2 = some { Code := c, Message := err.Error, Data := none } →
      w.Code = c := by
    intro c hc
    rw [hw] at hc
    cases hc; rfl
  refine ⟨w, hw, hmsg, hdata, fun hk => code _ (hP hk), fun hk => code _ (hR hk),
    fun hk => code _ (hI hk), fun hk => code _ (hF hk), fun hk => code _ (hM hk), ?_, ?_⟩
  · intro k hk
    cases k
    · exact code _ (hP hk)
    · exact code _ (hR hk)
    · exact code _ (hI hk)
    · exact code _ (hF hk)
    · exact code _ (hM hk)
  · intro hnone
    apply code
    simp [errorMapper, h, hnone]

/-- C1, witness: a wrapped not-found error carries no wire error, is of the one kind NotFound,
and maps to generic-server-error with its own text. -/
theorem errorMapper_code_table_witness :
    threadNotFound.As = none ∧ threadNotFound.Is .ErrNotFound = true ∧
    ∃ w, (errorMapper (some threadNotFound)).2 = some w ∧ w.Code = E_SERVER ∧
      w.Message = "thread 7: not found" := by
  obtain ⟨_, w, hw, hmsg, _, _, _, _, hF, _⟩ :=
    errorMapper_code_table threadNotFound rfl
      (by intro k1 k2; cases k1 <;> cases k2 <;> decide)
  exact ⟨rfl, rfl, w, hw, hF rfl, by rw [hmsg]; decide⟩

/-- C2: an error with a wire error anywhere in its tree is mapped to that wire error (the first
of the walk), unchanged, whatever sentinels it matches. -/
theorem errorMapper_passes_wire_error (err : GoError) (h : err.wireErrors ≠ []) :
    ∃ e, e ∈ err.wireErrors ∧ err.wireErrors.head? = some e ∧
      (errorMapper (some err)).2 = some e := by
  obtain ⟨e, rest, hl⟩ := List.exists_cons_of_ne_nil h
  refine ⟨e, by simp [hl], by simp [hl], ?_⟩
  have has : err.As = some e := by rw [GoError.as_eq_head_wireErrors, hl]; rfl
  simp [errorMapper, has]

/-- C2, witness: an error that matches `ErrInvalidParams` and wraps a wire error keeps the
code, message and data of the wire error. -/
theorem errorMapper_passes_wire_error_witness :
    invalidParamsWithWireError.Is .ErrInvalidParams = true ∧
    ∃ e, e ∈ invalidParamsWithWireError.wireErrors ∧
      invalidParamsWithWireError.wireErrors.head? = some e ∧
      (errorMapper (some invalidParamsWithWireError)).2 = some e :=
  ⟨by decide, errorMapper_passes_wire_error invalidParamsWithWireError (by decide)⟩

/-! ### The hooks -/

theorem DBState.on_fresh (st : DBState) (hlt : ∀ p ∈ st.statements, p.1 < st.handles) :
    st.on st.handles = [] := by
  simp only [DBState.on, List.map_eq_nil_iff, List.filter_eq_nil_iff]
  intro p hp
  have := hlt p hp
  simp; omega

theorem DBState.on_issue (st : DBState) (hlt : ∀ p ∈ st.statements, p.1 < st.handles)
    (n : Nat) (sql : String) :
    DBState.on { handles := n, statements := st.statements ++ [(st.handles, sql)] } st.handles
      = [sql] := by
  have hfresh := DBState.on_fresh st hlt
  simp only [DBState.on, List.map_eq_nil_iff] at hfresh
  simp [DBState.on, hfresh]

theorem OpenSession_inv (schema : String) (ctx : Context) (db : Nat) (st : DBState)
    (hinv : SessionInv schema ctx st) :
    SessionInv schema (OpenSession schema ctx db st).1.1 (OpenSession schema ctx db st).2 ∧
    (OpenSession schema ctx db st).1.1.session = some (OpenSession schema ctx db st).1.2 := by
  cases hs : ctx.session with
  | some tx => simp [OpenSession, hs, hinv]
  | none =>
    obtain ⟨hlt, _⟩ := hinv
    simp only [OpenSession, hs, WithSession, and_true]
    refine ⟨?_, ?_⟩
    · intro p hp
      simp only [List.mem_append, List.mem_singleton] at hp
      rcases hp with hp | hp
      · have := hlt p hp
        show p.1 < st.handles + 1
        omega
      · subst hp; simp
    · intro h hh
      simp only [Option.some.injEq] at hh
      subst hh
      rw [DBState.on_issue st hlt]
      simp

theorem openChain_bound (schema : String) (db : Nat) (n : Nat) (ctx : Context) (st : DBState)
    (h : Nat) (hs : ctx.session = some h) :
    openChain schema db n ctx st = (List.replicate n h, ctx, st) := by
  induction n with
  | zero => rfl
  | succ n ih => simp [openChain, OpenSession, hs, ih, List.replicate_succ]

/-- C7: a context that carries a session gets the same context and that session back, and no
statement is issued; a context without one gets a context carrying a newly derived handle, on
which the schema selection is the one statement issued and the first. In a chain of calls, each
on the context the one before returned, every call returns the same handle, the chain issues
the schema selection at most once (once when the first context has no session, never when it
has one), and on that handle the schema selection stands first and exactly once. -/
theorem openSession_reentrant (schema : String) (ctx : Context) (db : Nat) (st : DBState)
    (hinv : SessionInv schema ctx st) (n : Nat) :
    (∀ tx, ctx.session = some tx → OpenSession schema ctx db st = ((ctx, tx), st)) ∧
    (ctx.session = none →
      st.on st.handles = [] ∧
      (OpenSession schema ctx db st).1 = ({ ctx with session := some st.handles }, st.handles) ∧
      (OpenSession schema ctx db st).2.statements
        = st.statements ++ [(st.handles, schemaSelection schema)] ∧
      (OpenSession schema ctx db st).2.on st.handles = [schemaSelection schema]) ∧
    ∃ h, (openChain schema db (n + 1) ctx st).1 = List.replicate (n + 1) h ∧
      (openChain schema db (n + 1) ctx st).2.1.session = some h ∧
      (openChain schema db (n + 1) ctx st).2.2.statements
        = st.statements ++ (if ctx.session = none then [(h, schemaSelection schema)] else []) ∧
      ((openChain schema db (n + 1) ctx st).2.2.on h).head? = some (schemaSelection schema) ∧
      ((openChain schema db (n + 1) ctx st).2.2.on h).count (schemaSelection schema) = 1 := by
  have hfresh := DBState.on_fresh st hinv.1
  refine ⟨?_, ?_, ?_⟩
  · intro tx hs
    simp [OpenSession, hs]
  · intro hs
    refine ⟨hfresh, by simp [OpenSession, hs, WithSession], by simp [OpenSession, hs, WithSession], ?_⟩
    simp only [OpenSession, hs, WithSession]
    exact DBState.on_issue st hinv.1 _ _
  · obtain ⟨hinv2, hsess⟩ := OpenSession_inv schema ctx db st hinv
    refine ⟨(OpenSession schema ctx db st).1.2, ?_⟩
    have hchain := openChain_bound schema db n _ (OpenSession schema ctx db st).2 _ hsess
    simp only [openChain, hchain, List.replicate_succ, true_and]
    refine ⟨hsess, ?_, ?_⟩
    · cases hs : ctx.session with
      | some tx => simp [OpenSession, hs]
      | none => simp [OpenSession, hs, WithSession]
    · exact (hinv2.2 _ hsess).2

/-- C7, witness: from a context without session, on a database on which no statement was
issued, the calls of a chain of three return one and the same handle and the schema selection
is issued once. -/
theorem openSession_reentrant_witness :
    SessionInv "tenant_a" emptyContext freshDB ∧
    ∃ h, (openChain "tenant_a" 0 (2 + 1) emptyContext freshDB).1 = List.replicate (2 + 1) h ∧
      (openChain "tenant_a" 0 (2 + 1) emptyContext freshDB).2.1.session = some h ∧
      (openChain "tenant_a" 0 (2 + 1) emptyContext freshDB).2.2.statements
        = freshDB.statements ++
          (if emptyContext.session = none then [(h, schemaSelection "tenant_a")] else []) ∧
      ((openChain "tenant_a" 0 (2 + 1) emptyContext freshDB).2.2.on h).head?
        = some (schemaSelection "tenant_a") ∧
      ((openChain "tenant_a" 0 (2 + 1) emptyContext freshDB).2.2.on h).count
        (schemaSelection "tenant_a") = 1 :=
  have hinv : SessionInv "tenant_a" emptyContext freshDB :=
    ⟨by simp [freshDB], by intro h hh; simp [emptyContext] at hh⟩
  ⟨hinv, (openSession_reentrant "tenant_a" emptyContext 0 freshDB hinv 2).2.2⟩

/-! ### `GetThreads` -/

theorem foldl_append_singleton {α β : Type} (f : α → β) (xs : List α) (acc : List β) :
    xs.foldl (fun acc x => acc ++ [f x]) acc = acc ++ xs.map f := by
  induction xs generalizing acc with
  | nil => simp
  | cons x xs ih => simp [ih]

theorem toWireThread_eq (thread : EntityThread) :
    toWireThread thread =
      { Id := thread.ID % 2 ^ 32, CreatedAt := thread.CreatedAt, UpdatedAt := thread.UpdatedAt,
        Instruction := thread.Instruction, Participants := thread.ParticipantNames } := by
  have := foldl_append_singleton (fun p : String => p) thread.ParticipantNames []
  simp only [List.map_id', List.nil_append] at this
  simp [toWireThread, toUint32, this]

/-- C6, as the code has it: the reply has one record per thread the manager returned, in the
same order, with the instruction, the instants and the participant names of the thread and
with its id reduced modulo 2^32 (the id itself when it is below 2^32); `next_cursor` is the id
of the last thread returned, reduced in the same way, or 0 when the page is empty. -/
theorem getThreads_reply (getThreads : Nat → Nat → Except GoError (List EntityThread))
    (args : GetThreadsRequest) (threads : List EntityThread)
    (h : getThreads args.Cursor args.Limit = .ok threads) :
    ∃ reply, GetThreads getThreads args emptyThreadsReply = (none, reply) ∧
      reply.Threads.length = threads.length ∧
      reply.Threads = threads.map (fun t =>
        { Id := t.ID % 2 ^ 32, CreatedAt := t.CreatedAt, UpdatedAt := t.UpdatedAt,
          Instruction := t.Instruction, Participants := t.ParticipantNames }) ∧
      reply.NextCursor = (match threads.getLast? with
        | some last => last.ID % 2 ^ 32
        | none => 0) ∧
      ((∀ t ∈ threads, t.ID < 2 ^ 32) →
        reply.Threads.map (fun r => r.Id) = threads.map (fun t => t.ID) ∧
        reply.NextCursor = (match threads.getLast? with
          | some last => last.ID
          | none => 0)) := by
  have hfold := foldl_append_singleton toWireThread threads []
  simp only [List.nil_append] at hfold
  have hmap : threads.map toWireThread = threads.map (fun t =>
      ({ Id := t.ID % 2 ^ 32, CreatedAt := t.CreatedAt, UpdatedAt := t.UpdatedAt,
         Instruction := t.Instruction, Participants := t.ParticipantNames } : Thread)) :=
    List.map_congr_left (fun t _ => toWireThread_eq t)
  cases hl : threads.getLast? with
  | none =>
    refine ⟨{ Threads := threads.map toWireThread, NextCursor := 0 }, ?_, by simp, hmap, rfl, ?_⟩
    · simp [GetThreads, h, hl, hfold, emptyThreadsReply]
    · intro hsmall
      refine ⟨?_, rfl⟩
      rw [hmap, List.map_map]
      exact List.map_congr_left (fun t ht => Nat.mod_eq_of_lt (hsmall t ht))
  | some last =>
    refine ⟨{ Threads := threads.map toWireThread, NextCursor := last.ID % 2 ^ 32 },
      ?_, by simp, hmap, rfl, ?_⟩
    · simp [GetThreads, h, hl, hfold, emptyThreadsReply, toUint32]
    · intro hsmall
      refine ⟨?_, ?_⟩
      · rw [hmap, List.map_map]
        exact List.map_congr_left (fun t ht => Nat.mod_eq_of_lt (hsmall t ht))
      · exact Nat.mod_eq_of_lt (hsmall last (List.mem_of_mem_getLast? hl))

/-- C6, witness: two threads with ids 1 and 2 give two records with ids 1 and 2 and
`next_cursor` 2. -/
theorem getThreads_reply_witness :
    ∃ reply, GetThreads (fun _ _ => .ok twoThreads) { Cursor := 0, Limit := 10 }
        emptyThreadsReply = (none, reply) ∧
      reply.Threads.map (fun r => r.Id) = [1, 2] ∧ reply.NextCursor = 2 := by
  obtain ⟨reply, h1, _, _, _, h5⟩ :=
    getThreads_reply (fun _ _ => .ok twoThreads) { Cursor := 0, Limit := 10 } twoThreads rfl
  obtain ⟨h6, h7⟩ := h5 (by decide)
  exact ⟨reply, h1, h6, h7⟩

/-- C6, as stated, fails: a thread with id 2^32 + 7 is returned with id 7, and `next_cursor`
is 7. -/
theorem getThreads_id_counterexample :
    GetThreads (fun _ _ => .ok [bigThread]) { Cursor := 0, Limit := 10 } emptyThreadsReply
      = (none, { Threads := [{ Id := 7, CreatedAt := 0, UpdatedAt := 0,
                               Instruction := "plan trip", Participants := ["alice", "bob"] }],
                 NextCursor := 7 }) ∧
    bigThread.ID = 4294967303 ∧ (7 : Nat) ≠ bigThread.ID := by
  decide

/-! ### `GetMessages` -/

section GetMessagesProofs
variable {N : Type} [GoFloat N]

theorem marshalToolCalls_ok (toolCalls : List (MessageContentToolCall N))
    (acc : List MessageToolCall) : ∃ out, marshalToolCalls toolCalls acc = .ok out := by
  induction toolCalls generalizing acc with
  | nil => exact ⟨acc, rfl⟩
  | cons tc rest ih => simpa [marshalToolCalls, Marshal] using ih _

theorem toWireMessage_ok (msg : EntityMessage N) :
    ∃ r, toWireMessage msg = .ok r ∧ WireOf msg r := by
  obtain ⟨out, hout⟩ := marshalToolCalls_ok msg.Content.ToolCalls []
  refine ⟨{ Id := toUint32 msg.ID, Content := msg.Content.Text, CreatedAt := msg.CreatedAt,
            UpdatedAt := msg.UpdatedAt, Sender := msg.User, ToolCalls := out }, ?_, ?_⟩
  · simp [toWireMessage, hout]
  · simp [WireOf, toUint32]

/-- The cursor after a page: the id of its last message, the old cursor for an empty page. -/
theorem appendPage_ok (msgs : List (EntityMessage N)) (cursor : Nat)
    (reply : GetMessagesResponse) :
    ∃ wires, appendPage msgs cursor reply
        = (none, ((msgs.getLast?).map (fun m => m.ID)).getD cursor,
            { reply with Messages := reply.Messages ++ wires }) ∧
      List.Forall₂ WireOf msgs wires := by
  induction msgs generalizing cursor reply with
  | nil => exact ⟨[], by simp [appendPage], List.Forall₂.nil⟩
  | cons m rest ih =>
    obtain ⟨r, hr, hw⟩ := toWireMessage_ok m
    obtain ⟨wires, hws, hf⟩ := ih m.ID { reply with Messages := reply.Messages ++ [r] }
    refine ⟨r :: wires, ?_, List.Forall₂.cons hw hf⟩
    simp only [appendPage, hr, hws]
    cases rest with
    | nil => simp
    | cons m2 rest2 =>
      have hx : ∃ x, (m2 :: rest2).getLast? = some x := by
        cases hl : (m2 :: rest2).getLast? with
        | none => simp at hl
        | some x => exact ⟨x, rfl⟩
      obtain ⟨x, hx⟩ := hx
      simp [List.getLast?_cons_cons, hx]

/-- What a successful run of the loop leaves: every page is an answer of the manager, the last
page is the empty one and the only empty one, the reply has grown by the wire records of the
messages of the pages, in order, and `next_cursor` is the id of the last of them, or the
cursor the loop started from. -/
theorem getMessagesLoop_spec
    (g : Nat → String → Nat → Nat → Except GoError (List (EntityMessage N)))
    (args : GetMessagesRequest) (order : String) (fuel : Nat) :
    ∀ (cursor : Nat) (reply reply2 : GetMessagesResponse) (pages : List (List (EntityMessage N))),
      getMessagesLoop g args order fuel cursor reply = some (none, reply2, pages) →
      (∀ p ∈ pages, ∃ c, g args.ThreadId order c args.Limit = .ok p) ∧
      pages.getLast? = some [] ∧ (∀ p ∈ pages.dropLast, p ≠ []) ∧
      reply2.NextCursor = toUint32 (((pages.flatten.getLast?).map (fun m => m.ID)).getD cursor) ∧
      ∃ wires, reply2.Messages = reply.Messages ++ wires ∧
        List.Forall₂ WireOf pages.flatten wires := by
  induction fuel with
  | zero => intro cursor reply reply2 pages h; simp [getMessagesLoop] at h
  | succ fuel ih =>
    intro cursor reply reply2 pages h
    simp only [getMessagesLoop] at h
    cases hg : g args.ThreadId order cursor args.Limit with
    | error err => simp [hg] at h
    | ok messages =>
      simp only [hg] at h
      by_cases hlen : messages.length = 0
      · have hnil : messages = [] := List.length_eq_zero.mp hlen
        subst hnil
        simp only [List.length_nil, ↓reduceIte, Option.some.injEq, Prod.mk.injEq, true_and] at h
        obtain ⟨h1, h2⟩ := h
        subst h1 h2
        refine ⟨?_, by simp, by simp, by simp, [], by simp, by simp⟩
        intro p hp
        simp only [List.mem_singleton] at hp
        subst hp
        exact ⟨cursor, hg⟩
      · simp only [hlen, ↓reduceIte] at h
        obtain ⟨wires, hap, hf⟩ := appendPage_ok messages cursor reply
        simp only [hap, Option.map_eq_some', Prod.mk.injEq, Prod.exists] at h
        obtain ⟨e, r, ps, hloop, he, hr, hps⟩ := h
        subst he hr hps
        obtain ⟨i1, i2, i3, i4, wires2, i5, i6⟩ := ih _ _ _ _ hloop
        have hne : messages ≠ [] := fun hc => hlen (by simp [hc])
        have hps_ne : ps ≠ [] := by
          intro hc; simp [hc] at i2
        refine ⟨?_, ?_, ?_, ?_, wires ++ wires2, ?_, ?_⟩
        · intro p hp
          simp only [List.mem_cons] at hp
          rcases hp with hp | hp
          · subst hp; exact ⟨cursor, hg⟩
          · exact i1 p hp
        · obtain ⟨q, qs, hq⟩ := List.exists_cons_of_ne_nil hps_ne
          rw [hq] at i2 ⊢
          simpa [List.getLast?_cons_cons] using i2
        · obtain ⟨q, qs, hq⟩ := List.exists_cons_of_ne_nil hps_ne
          rw [hq] at i3 ⊢
          intro p hp
          simp only [List.dropLast_cons₂, List.mem_cons] at hp
          rcases hp with hp | hp
          · subst hp; exact hne
          · exact i3 p hp
        · rw [i4]
          congr 1
          simp only [List.flatten_cons]
          cases hj : ps.flatten.getLast? with
          | none =>
            have : ps.flatten = [] := List.getLast?_eq_none_iff.mp hj
            simp [this]
          | some x =>
            have hjne : ps.flatten ≠ [] := by
              intro hc; simp [hc] at hj
            rw [List.getLast?_append_of_ne_nil _ hjne, hj]
            simp
        · simp [i5, List.append_assoc]
        · simpa using List.rel_append hf i6

theorem lyingAfter_trans (order : String) (a b c : Nat)
    (h1 : lyingAfter order a b = true) (h2 : lyingAfter order b c = true) :
    lyingAfter order a c = true := by
  unfold lyingAfter at *
  split at h1 <;> simp_all <;> omega

theorem lyingAfter_irrefl (order : String) (a : Nat) : lyingAfter order a a = false := by
  unfold lyingAfter
  split <;> simp

/-- When every page lies after the cursor the manager was given, every message of a successful
run lies after the cursor the loop started from. -/
theorem getMessagesLoop_after
    (g : Nat → String → Nat → Nat → Except GoError (List (EntityMessage N)))
    (args : GetMessagesRequest) (order : String)
    (hafter : ∀ c page, g args.ThreadId order c args.Limit = .ok page →
      ∀ m ∈ page, lyingAfter order c m.ID = true) (fuel : Nat) :
    ∀ (cursor : Nat) (reply reply2 : GetMessagesResponse) (pages : List (List (EntityMessage N))),
      getMessagesLoop g args order fuel cursor reply = some (none, reply2, pages) →
      ∀ m ∈ pages.flatten, lyingAfter order cursor m.ID = true := by
  induction fuel with
  | zero => intro cursor reply reply2 pages h; simp [getMessagesLoop] at h
  | succ fuel ih =>
    intro cursor reply reply2 pages h
    simp only [getMessagesLoop] at h
    cases hg : g args.ThreadId order cursor args.Limit with
    | error err => simp [hg] at h
    | ok messages =>
      simp only [hg] at h
      by_cases hlen : messages.length = 0
      · simp only [hlen, ↓reduceIte, Option.some.injEq, Prod.mk.injEq, true_and] at h
        have hnil : messages = [] := List.length_eq_zero.mp hlen
        obtain ⟨_, h2⟩ := h
        subst h2 hnil
        simp
      · simp only [hlen, ↓reduceIte] at h
        obtain ⟨wires, hap, _⟩ := appendPage_ok messages cursor reply
        simp only [hap, Option.map_eq_some', Prod.mk.injEq, Prod.exists] at h
        obtain ⟨e, r, ps, hloop, he, hr, hps⟩ := h
        subst he hr hps
        have hpage := hafter cursor messages hg
        intro m hm
        simp only [List.flatten_cons, List.mem_append] at hm
        rcases hm with hm | hm
        · exact hpage m hm
        · have hrest := ih _ _ _ _ hloop m hm
          cases hl : messages.getLast? with
          | none =>
            rw [hl] at hrest
            exact hrest
          | some x =>
            rw [hl] at hrest
            exact lyingAfter_trans order cursor x.ID m.ID
              (hpage x (List.mem_of_mem_getLast? hl)) hrest

theorem countP_lt_of_imp {α : Type} (p q : α → Bool) (l : List α)
    (himp : ∀ a, p a = true → q a = true) (x : α) (hx : x ∈ l) (hq : q x = true)
    (hp : p x = false) : l.countP p < l.countP q := by
  induction l with
  | nil => simp at hx
  | cons a l ih =>
    have hmono : l.countP p ≤ l.countP q := List.countP_mono_left (fun a _ => himp a)
    simp only [List.mem_cons] at hx
    rcases hx with hx | hx
    · subst hx
      simp [List.countP_cons, hq, hp]
      omega
    · have := ih hx
      simp only [List.countP_cons]
      by_cases hpa : p a = true
      · simp [hpa, himp a hpa]; omega
      · simp [hpa]; split <;> omega

/-- The loop ends: when the manager never fails and every page holds only messages whose ids
are among `ids` and lie after the cursor it was given, the loop started at `cursor` returns
within as many turns as `ids` has ids after `cursor`, plus one. -/
theorem getMessagesLoop_terminates
    (g : Nat → String → Nat → Nat → Except GoError (List (EntityMessage N)))
    (args : GetMessagesRequest) (order : String) (ids : List Nat)
    (hok : ∀ c, ∃ page, g args.ThreadId order c args.Limit = .ok page)
    (hpage : ∀ c page, g args.ThreadId order c args.Limit = .ok page →
      ∀ m ∈ page, m.ID ∈ ids ∧ lyingAfter order c m.ID = true) (k : Nat) :
    ∀ (cursor : Nat) (reply : GetMessagesResponse),
      ids.countP (lyingAfter order cursor) ≤ k →
      ∃ reply2 pages, pages.length ≤ k + 1 ∧
        ∀ fuel, k < fuel →
          getMessagesLoop g args order fuel cursor reply = some (none, reply2, pages) := by
  induction k with
  | zero =>
    intro cursor reply hk
    obtain ⟨page, hg⟩ := hok cursor
    have hnil : page = [] := by
      cases page with
      | nil => rfl
      | cons m rest =>
        exfalso
        obtain ⟨hin, haft⟩ := hpage cursor _ hg m (by simp)
        have : 0 < ids.countP (lyingAfter order cursor) :=
          List.countP_pos_iff.mpr ⟨m.ID, hin, haft⟩
        omega
    subst hnil
    refine ⟨{ reply with NextCursor := toUint32 cursor }, [[]], by simp, ?_⟩
    intro fuel hfuel
    obtain ⟨f, rfl⟩ : ∃ f, fuel = f + 1 := ⟨fuel - 1, by omega⟩
    simp [getMessagesLoop, hg]
  | succ k ih =>
    intro cursor reply hk
    obtain ⟨page, hg⟩ := hok cursor
    by_cases hlen : page.length = 0
    · have hnil : page = [] := List.length_eq_zero.mp hlen
      subst hnil
      refine ⟨{ reply with NextCursor := toUint32 cursor }, [[]], by simp, ?_⟩
      intro fuel hfuel
      obtain ⟨f, rfl⟩ : ∃ f, fuel = f + 1 := ⟨fuel - 1, by omega⟩
      simp [getMessagesLoop, hg]
    · obtain ⟨wires, hap, _⟩ := appendPage_ok page cursor reply
      have hlast : ∃ x, page.getLast? = some x := by
        cases hl : page.getLast? with
        | none => exact absurd (by simp [List.getLast?_eq_none_iff.mp hl]) hlen
        | some x => exact ⟨x, rfl⟩
      obtain ⟨x, hx⟩ := hlast
      obtain ⟨hin, haft⟩ := hpage cursor _ hg x (List.mem_of_mem_getLast? hx)
      have hdec : ids.countP (lyingAfter order x.ID) < ids.countP (lyingAfter order cursor) :=
        countP_lt_of_imp _ _ ids (fun a ha => lyingAfter_trans order cursor x.ID a haft ha)
          x.ID hin haft (lyingAfter_irrefl order x.ID)
      rw [hx] at hap
      obtain ⟨reply2, pages, hlenp, hrun⟩ :=
        ih x.ID { reply with Messages := reply.Messages ++ wires } (by omega)
      refine ⟨reply2, page :: pages, by simp; omega, ?_⟩
      intro fuel hfuel
      obtain ⟨f, rfl⟩ : ∃ f, fuel = f + 1 := ⟨fuel - 1, by omega⟩
      have := hrun f (by omega)
      simp only [Option.map_some', Option.getD_some] at hap
      simp [getMessagesLoop, hg, hlen, hap, this]

end GetMessagesProofs

/-! ### The manager of the spec -/

theorem mem_insertById {N : Type} (m x : EntityMessage N) (l : List (EntityMessage N)) :
    x ∈ insertById m l ↔ x = m ∨ x ∈ l := by
  induction l with
  | nil => simp [insertById]
  | cons a l ih =>
    simp only [insertById]
    split
    · simp
    · simp only [List.mem_cons, ih]
      tauto

theorem mem_sortById {N : Type} (x : EntityMessage N) (l : List (EntityMessage N)) :
    x ∈ sortById l ↔ x ∈ l := by
  induction l with
  | nil => simp [sortById]
  | cons a l ih => simp [sortById, mem_insertById, ih]

theorem specGetMessages_page {N : Type} (store : List (EntityMessage N)) (threadId : Nat)
    (order : String) (cursor limit : Nat) :
    ∃ page, specGetMessages store threadId order cursor limit = .ok page ∧
      page.length ≤ limit ∧
      ∀ m ∈ page, m ∈ store ∧ m.ThreadID = threadId ∧ lyingAfter order cursor m.ID = true := by
  unfold specGetMessages
  by_cases ho : order = "DESC"
  · simp only [ho, ↓reduceIte]
    refine ⟨_, rfl, List.length_take_le _ _, ?_⟩
    intro m hm
    have hm2 := List.mem_of_mem_take hm
    simp only [List.mem_filter, List.mem_reverse, mem_sortById, decide_eq_true_eq] at hm2
    exact ⟨hm2.1.1, hm2.1.2, by simp [lyingAfter, ho, hm2.2]⟩
  · simp only [ho, ↓reduceIte]
    refine ⟨_, rfl, List.length_take_le _ _, ?_⟩
    intro m hm
    have hm2 := List.mem_of_mem_take hm
    simp only [List.mem_filter, mem_sortById, decide_eq_true_eq] at hm2
    exact ⟨hm2.1.1, hm2.1.2, by simp [lyingAfter, ho, hm2.2]⟩

theorem forall₂_getLast? {α β : Type} (R : α → β → Prop) (xs : List α) (ys : List β)
    (h : List.Forall₂ R xs ys) :
    (xs.getLast? = none ∧ ys.getLast? = none) ∨
      ∃ x y, xs.getLast? = some x ∧ ys.getLast? = some y ∧ R x y := by
  induction h with
  | nil => exact Or.inl ⟨rfl, rfl⟩
  | @cons a b l1 l2 hr hrest ih =>
    right
    rcases ih with ⟨h1, h2⟩ | ⟨x, y, h1, h2, h3⟩
    · have e1 : l1 = [] := List.getLast?_eq_none_iff.mp h1
      have e2 : l2 = [] := List.getLast?_eq_none_iff.mp h2
      subst e1 e2
      exact ⟨a, b, rfl, rfl, hr⟩
    · refine ⟨x, y, ?_, ?_, h3⟩
      · cases l1 with
        | nil => simp at h1
        | cons c l1 => rw [List.getLast?_cons_cons]; exact h1
      · cases l2 with
        | nil => simp at h2
        | cons c l2 => rw [List.getLast?_cons_cons]; exact h2

/-! ### The claims on `GetMessages` -/

section GetMessagesClaims
variable {N : Type} [GoFloat N]

/-- C4, as the code has it: given a manager that returns at most n messages per call, each
lying strictly after the cursor it was given in the chosen direction, the reply of a successful
call holds the wire records of ALL pages the manager returned up to the first empty page, in
order; each page has at most n messages and all messages lie strictly after the request
cursor, but the list is bounded only by n times the number of non-empty pages. -/
theorem getMessages_reply_all_pages
    (g : Nat → String → Nat → Nat → Except GoError (List (EntityMessage N)))
    (args : GetMessagesRequest) (fuel : Nat) (reply : GetMessagesResponse)
    (pages : List (List (EntityMessage N)))
    (hn : ∀ c page, g args.ThreadId (sqlOrder args.Order) c args.Limit = .ok page →
      page.length ≤ args.Limit)
    (hafter : ∀ c page, g args.ThreadId (sqlOrder args.Order) c args.Limit = .ok page →
      ∀ m ∈ page, lyingAfter (sqlOrder args.Order) c m.ID = true)
    (hres : GetMessagesTrace g fuel args emptyMessagesReply = some (none, reply, pages)) :
    List.Forall₂ WireOf pages.flatten reply.Messages ∧
    (∀ m ∈ pages.flatten, lyingAfter (sqlOrder args.Order) args.Cursor m.ID = true) ∧
    (∀ p ∈ pages, p.length ≤ args.Limit) ∧
    pages.getLast? = some [] ∧ (∀ p ∈ pages.dropLast, p ≠ []) ∧
    reply.Messages.length ≤ args.Limit * (pages.length - 1) := by
  simp only [GetMessagesTrace] at hres
  obtain ⟨h1, h2, h3, _, wires, h5, h6⟩ := getMessagesLoop_spec g args _ fuel _ _ _ _ hres
  have haft := getMessagesLoop_after g args _ hafter fuel _ _ _ _ hres
  have hsize : ∀ p ∈ pages, p.length ≤ args.Limit := by
    intro p hp
    obtain ⟨c, hc⟩ := h1 p hp
    exact hn c p hc
  simp only [emptyMessagesReply, List.nil_append] at h5
  rw [h5]
  refine ⟨h6, haft, hsize, h2, h3, ?_⟩
  rw [← List.Forall₂.length_eq h6]
  have hsplit : pages = pages.dropLast ++ [[]] := by
    have := List.dropLast_append_getLast? [] (by simpa using h2)
    simpa using this.symm
  have hflat : pages.flatten = pages.dropLast.flatten := by
    conv_lhs => rw [hsplit]
    simp
  have hbound : ∀ (ps : List (List (EntityMessage N))), (∀ p ∈ ps, p.length ≤ args.Limit) →
      ps.flatten.length ≤ args.Limit * ps.length := by
    intro ps hps
    induction ps with
    | nil => simp
    | cons p ps ih =>
      have := hps p (by simp)
      have := ih (fun q hq => hps q (by simp [hq]))
      simp only [List.flatten_cons, List.length_append, List.length_cons]
      rw [Nat.mul_succ]
      omega
  rw [hflat]
  have := hbound pages.dropLast (fun p hp => hsize p (List.mem_of_mem_dropLast hp))
  simpa using this

/-- C5, as the code has it: after a successful call `next_cursor` is the id of the last message
of the reply, and the request's cursor when the reply has no message; the messages of the reply
are, in order, the wire records of messages the manager returned: each carries the sender, the
text and the instants of its stored message and the stored id reduced modulo 2^32 (the id
itself when it is below 2^32). -/
theorem getMessages_reply_fields
    (g : Nat → String → Nat → Nat → Except GoError (List (EntityMessage N)))
    (args : GetMessagesRequest) (fuel : Nat) (reply : GetMessagesResponse)
    (hc : args.Cursor < 2 ^ 32)
    (hres : GetMessages g fuel args emptyMessagesReply = some (none, reply)) :
    reply.NextCursor = (match reply.Messages.getLast? with
      | some r => r.Id
      | none => args.Cursor) ∧
    ∃ stored : List (EntityMessage N),
      (∀ m ∈ stored, ∃ c page,
        g args.ThreadId (sqlOrder args.Order) c args.Limit = .ok page ∧ m ∈ page) ∧
      List.Forall₂ WireOf stored reply.Messages ∧
      ((∀ m ∈ stored, m.ID < 2 ^ 32) →
        reply.Messages.map (fun r => r.Id) = stored.map (fun m => m.ID)) := by
  simp only [GetMessages, Option.map_eq_some', Prod.mk.injEq, Prod.exists] at hres
  obtain ⟨e, r, pages, htrace, he, hr⟩ := hres
  subst he hr
  simp only [GetMessagesTrace] at htrace
  obtain ⟨h1, _, _, h4, wires, h5, h6⟩ := getMessagesLoop_spec g args _ fuel _ _ _ _ htrace
  simp only [emptyMessagesReply, List.nil_append] at h5
  rw [h5]
  refine ⟨?_, pages.flatten, ?_, h6, ?_⟩
  · rw [h4]
    rcases forall₂_getLast? WireOf _ _ h6 with ⟨e1, e2⟩ | ⟨x, y, e1, e2, hw⟩
    · rw [e1, e2]
      simp only [Option.map_none', Option.getD_none, toUint32]
      exact Nat.mod_eq_of_lt hc
    · rw [e1, e2]
      simp only [Option.map_some', Option.getD_some, toUint32]
      exact hw.1.symm
  · intro m hm
    obtain ⟨p, hp, hmp⟩ := List.mem_flatten.mp hm
    obtain ⟨c, hcp⟩ := h1 p hp
    exact ⟨c, p, hcp, hmp⟩
  · intro hsmall
    have hgen : ∀ (ms : List (EntityMessage N)) (ws : List Message),
        List.Forall₂ WireOf ms ws → (∀ m ∈ ms, m.ID < 2 ^ 32) →
        ws.map (fun r => r.Id) = ms.map (fun m => m.ID) := by
      intro ms ws hf
      induction hf with
      | nil => intro _; rfl
      | @cons a b l1 l2 hr _ ih =>
        intro hs
        simp only [List.map_cons, List.cons.injEq]
        refine ⟨?_, ih (fun m hm => hs m (by simp [hm]))⟩
        rw [hr.1]
        exact Nat.mod_eq_of_lt (hs a (by simp))
    exact hgen _ _ h6 hsmall

/-- C10: when the manager never fails and every page it returns holds only messages of the
thread (their ids are among the finitely many `ids`) lying strictly after the cursor it was
given, the paging loop of `GetMessages` ends: with any allowance of more than `ids.length`
turns the handler returns, after at most `ids.length + 1` calls of the manager, the last of
which is the first to return an empty page. -/
theorem getMessages_terminates
    (g : Nat → String → Nat → Nat → Except GoError (List (EntityMessage N)))
    (args : GetMessagesRequest) (ids : List Nat)
    (hok : ∀ c, ∃ page, g args.ThreadId (sqlOrder args.Order) c args.Limit = .ok page)
    (hpage : ∀ c page, g args.ThreadId (sqlOrder args.Order) c args.Limit = .ok page →
      ∀ m ∈ page, m.ID ∈ ids ∧ lyingAfter (sqlOrder args.Order) c m.ID = true) :
    ∃ reply pages,
      (∀ fuel, ids.length < fuel →
        GetMessagesTrace g fuel args emptyMessagesReply = some (none, reply, pages)) ∧
      pages.length ≤ ids.length + 1 ∧
      (∀ p ∈ pages, ∃ c, g args.ThreadId (sqlOrder args.Order) c args.Limit = .ok p) ∧
      pages.getLast? = some [] ∧ (∀ p ∈ pages.dropLast, p ≠ []) := by
  obtain ⟨reply, pages, hlen, hrun⟩ :=
    getMessagesLoop_terminates g args (sqlOrder args.Order) ids hok hpage ids.length
      args.Cursor emptyMessagesReply (List.countP_le_length _)
  have hone := hrun (ids.length + 1) (by omega)
  obtain ⟨h1, h2, h3, _, _⟩ := getMessagesLoop_spec g args _ _ _ _ _ _ hone
  exact ⟨reply, pages, fun fuel hf => by simpa [GetMessagesTrace] using hrun fuel hf,
    hlen, h1, h2, h3⟩

end GetMessagesClaims

theorem specGetMessages_threeMessages (threadId : Nat) (order : String) (c limit : Nat)
    (page : List (EntityMessage Nat))
    (h : specGetMessages threeMessages threadId order c limit = .ok page) :
    page.length ≤ limit ∧
    ∀ m ∈ page, m.ID ∈ [1, 2, 3] ∧ lyingAfter order c m.ID = true := by
  obtain ⟨page2, h2, hlen, hmem⟩ := specGetMessages_page threeMessages threadId order c limit
  rw [h] at h2
  cases h2
  refine ⟨hlen, fun m hm => ⟨?_, (hmem m hm).2.2⟩⟩
  have := (hmem m hm).1
  simp only [threeMessages, List.mem_cons, List.mem_singleton, List.not_mem_nil, or_false] at this
  rcases this with h | h | h <;> subst h <;> simp [textMessage]

/-- C4, witness: on the three messages of thread 1, with limit 10, the manager of the spec
answers within the limit and after the cursor, and the reply holds the three messages. -/
theorem getMessages_reply_all_pages_witness :
    GetMessagesTrace (specGetMessages threeMessages) 3
        { ThreadId := 1, Order := "oldest", Limit := 10, Cursor := 0 } emptyMessagesReply
      = some (none, { Messages := [
          { Id := 1, Content := "hi bob", CreatedAt := 0, UpdatedAt := 0, Sender := "alice",
            ToolCalls := [] },
          { Id := 2, Content := "hi alice", CreatedAt := 0, UpdatedAt := 0, Sender := "bob",
            ToolCalls := [] },
          { Id := 3, Content := "shall we start", CreatedAt := 0, UpdatedAt := 0,
            Sender := "alice", ToolCalls := [] }], NextCursor := 3 }, [threeMessages, []]) ∧
    ∀ m ∈ [threeMessages, []].flatten, lyingAfter "ASC" 0 m.ID = true :=
  ⟨rfl, (getMessages_reply_all_pages (specGetMessages threeMessages)
    { ThreadId := 1, Order := "oldest", Limit := 10, Cursor := 0 } 3 _ [threeMessages, []]
    (fun c page h => (specGetMessages_threeMessages _ _ c _ page h).1)
    (fun c page h m hm => ((specGetMessages_threeMessages _ _ c _ page h).2 m hm).2)
    rfl).2.1⟩

/-- C4, as stated, fails: on the three messages of thread 1, with limit 1, the manager of the
spec returns at most one message per call, and the reply holds three messages. -/
theorem getMessages_limit_counterexample :
    (∀ t o c page, specGetMessages threeMessages t o c 1 = .ok page → page.length ≤ 1) ∧
    (GetMessages (specGetMessages threeMessages) 4
        { ThreadId := 1, Order := "oldest", Limit := 1, Cursor := 0 } emptyMessagesReply).map
      (fun r => (r.1, r.2.Messages.map (fun m => m.Id), r.2.NextCursor))
      = some (none, [1, 2, 3], 3) ∧
    ¬ ([1, 2, 3].length ≤ 1) :=
  ⟨fun t o c page h => (specGetMessages_threeMessages t o c 1 page h).1, by decide, by decide⟩

/-- C5, witness: the scenario of the spec. One stored message with id 1 from alice with text
"hi bob"; the request (thread 1, oldest, cursor 0, limit 10) gives one message with id 1 and
`next_cursor` 1. -/
theorem getMessages_reply_fields_witness :
    GetMessages (specGetMessages scenarioStore) 2
        { ThreadId := 1, Order := "oldest", Limit := 10, Cursor := 0 } emptyMessagesReply
      = some (none, scenarioReply) ∧
    scenarioReply.Messages.map (fun r => (r.Id, r.Sender, r.Content)) = [(1, "alice", "hi bob")] ∧
    scenarioReply.NextCursor = (match scenarioReply.Messages.getLast? with
      | some r => r.Id
      | none => 0) ∧
    scenarioReply.NextCursor = 1 :=
  ⟨by decide, by decide,
    (getMessages_reply_fields (specGetMessages scenarioStore)
      { ThreadId := 1, Order := "oldest", Limit := 10, Cursor := 0 } 2 scenarioReply
      (by decide) (by decide)).1, rfl⟩

/-- C5, as stated, fails: a stored message with id 2^32 + 1 is returned with id 1. -/
theorem getMessages_id_counterexample :
    GetMessages (specGetMessages bigIdStore) 2
        { ThreadId := 1, Order := "oldest", Limit := 10, Cursor := 0 } emptyMessagesReply
      = some (none, scenarioReply) ∧
    bigIdStore.map (fun m => m.ID) = [4294967297] ∧
    scenarioReply.Messages.map (fun r => r.Id) = [1] ∧ (1 : Nat) ≠ 4294967297 := by
  decide

/-- C10, witness: on the three messages of thread 1, with limit 1, the loop ends after four
calls of the manager. -/
theorem getMessages_terminates_witness :
    ∃ reply pages,
      (∀ fuel, [1, 2, 3].length < fuel →
        GetMessagesTrace (specGetMessages threeMessages) fuel
          { ThreadId := 1, Order := "oldest", Limit := 1, Cursor := 0 } emptyMessagesReply
          = some (none, reply, pages)) ∧
      pages.length ≤ [1, 2, 3].length + 1 ∧
      (∀ p ∈ pages, ∃ c, specGetMessages threeMessages 1 (sqlOrder "oldest") c 1 = .ok p) ∧
      pages.getLast? = some [] ∧ (∀ p ∈ pages.dropLast, p ≠ []) :=
  getMessages_terminates (specGetMessages threeMessages)
    { ThreadId := 1, Order := "oldest", Limit := 1, Cursor := 0 } [1, 2, 3]
    (fun c => by
      obtain ⟨page, h, _⟩ := specGetMessages_page threeMessages 1 (sqlOrder "oldest") c 1
      exact ⟨page, h⟩)
    (fun c page h => (specGetMessages_threeMessages _ _ c _ page h).2)

/-! ### `AddMessage` -/

section AddMessageClaims
variable {N : Type} [GoFloat N]

theorem unmarshalToolCalls_stops (toolCalls : List (Option MessageToolCall))
    (acc : List (MessageContentToolCall N))
    (h : ∃ t ∈ toolCalls, t = none ∨ ∃ tc, t = some tc ∧
      ((∃ e, (Unmarshal tc.Arguments : Except GoError (JVal N)) = .error e) ∨
       (∃ e, (Unmarshal tc.Result : Except GoError (JVal N)) = .error e))) :
    ∃ out, unmarshalToolCalls toolCalls acc = .error out ∧ out ≠ Outcome.returned none := by
  induction toolCalls generalizing acc with
  | nil => obtain ⟨t, ht, _⟩ := h; simp at ht
  | cons p rest ih =>
    cases p with
    | none => exact ⟨Outcome.panicked, rfl, by simp⟩
    | some tc =>
      simp only [unmarshalToolCalls]
      cases ha : (Unmarshal tc.Arguments : Except GoError (JVal N)) with
      | error e => exact ⟨_, rfl, by simp⟩
      | ok a =>
        cases hr : (Unmarshal tc.Result : Except GoError (JVal N)) with
        | error e => exact ⟨_, rfl, by simp⟩
        | ok r =>
          apply ih
          obtain ⟨t, ht, hbad⟩ := h
          simp only [List.mem_cons] at ht
          rcases ht with heq | hin
          · subst heq
            rcases hbad with hnone | ⟨tc2, htc2, hbad⟩
            · cases hnone
            · cases htc2
              rcases hbad with ⟨e, he⟩ | ⟨e, he⟩
              · rw [ha] at he; cases he
              · rw [hr] at he; cases he
          · exact ⟨t, hin, hbad⟩

/-- The thread manager is not called when a tool call of the request is the nil pointer or has
arguments or a result that `json.Unmarshal` rejects, wherever in the list it stands: the
handler does not end with success, and whatever the manager is, its store comes back as it
was (no message is appended), its count of calls stays at zero and the reply comes back as it
was given. -/
theorem addMessage_manager_not_called {σ : Type}
    (addMessage : σ → Nat → String → MessageContent N → Except GoError (EntityMessage N) × σ)
    (store : σ) (args : AddMessageRequest) (reply : AddMessageResponse)
    (h : ∃ t ∈ args.ToolCalls, t = none ∨ ∃ tc, t = some tc ∧
      ((∃ e, (Unmarshal tc.Arguments : Except GoError (JVal N)) = .error e) ∨
       (∃ e, (Unmarshal tc.Result : Except GoError (JVal N)) = .error e))) :
    ∃ out, out ≠ Outcome.returned none ∧
      AddMessage addMessage store args reply = ((out, reply), store) ∧
      AddMessage (countCalls addMessage) (store, 0) args reply = ((out, reply), (store, 0)) := by
  obtain ⟨out, ho, hne⟩ := unmarshalToolCalls_stops (N := N) args.ToolCalls [] h
  refine ⟨out, hne, ?_, ?_⟩
  · simp only [AddMessage, ho]
  · simp only [AddMessage, ho]

end AddMessageClaims

theorem toNat_ofNat_of_lt (n : Nat) (h : n < 55296) : (Char.ofNat n).toNat = n := by
  have hv : n.isValidChar := Or.inl h
  simp [Char.ofNat, hv, Char.ofNatAux, Char.toNat, UInt32.toNat, BitVec.toNat_ofNatLt]

theorem char_eq_ofNat_iff (c : Char) (n : Nat) (h : n < 55296) :
    c = Char.ofNat n ↔ c.toNat = n := by
  constructor
  · intro hc; subst hc; exact toNat_ofNat_of_lt n h
  · intro hc; rw [← hc, Char.ofNat_toNat]

theorem unquoteBody_plain (c : Char) (fuel : Nat) (tail : List Char)
    (h1 : c.toNat ≠ 34) (h2 : c.toNat ≠ 92) (h3 : 32 ≤ c.toNat) :
    unquoteBody (fuel + 1) (c :: tail)
      = (unquoteBody fuel tail).map (fun p => (c :: p.1, p.2)) := by
  have e1 : ¬ c = chQuote := by
    rw [chQuote, char_eq_ofNat_iff c 34 (by decide)]; exact h1
  have e2 : ¬ c = chBackslash := by
    rw [chBackslash, char_eq_ofNat_iff c 92 (by decide)]; exact h2
  have e3 : ¬ c.toNat < 32 := by omega
  simp only [unquoteBody, e1, e2, e3, ↓reduceIte]

theorem unquoteBody_ascii (n : Nat) (hn : n < 128) (fuel : Nat) (tail : List Char) :
    unquoteBody (fuel + 1) (encodeChar (Char.ofNat n) ++ tail)
      = (unquoteBody fuel tail).map (fun p => (Char.ofNat n :: p.1, p.2)) := by
  interval_cases n <;> rfl

theorem unquoteBody_separator (n : Nat) (hn : n = 8232 ∨ n = 8233) (fuel : Nat)
    (tail : List Char) :
    unquoteBody (fuel + 1) (encodeChar (Char.ofNat n) ++ tail)
      = (unquoteBody fuel tail).map (fun p => (Char.ofNat n :: p.1, p.2)) := by
  rcases hn with h | h <;> subst h <;> rfl

/-- Reading back what `appendString` wrote for one character gives the character. -/
theorem unquoteBody_encodeChar (c : Char) (fuel : Nat) (tail : List Char) :
    unquoteBody (fuel + 1) (encodeChar c ++ tail)
      = (unquoteBody fuel tail).map (fun p => (c :: p.1, p.2)) := by
  by_cases h128 : c.toNat < 128
  · have := unquoteBody_ascii c.toNat h128 fuel tail
    rwa [Char.ofNat_toNat] at this
  · by_cases hsep : c.toNat = 8232 ∨ c.toNat = 8233
    · have := unquoteBody_separator c.toNat hsep fuel tail
      rwa [Char.ofNat_toNat] at this
    · have henc : encodeChar c = [c] := by
        simp only [encodeChar, h128, hsep, ↓reduceIte]
      rw [henc]
      exact unquoteBody_plain c fuel tail (by omega) (by omega) (by omega)

theorem encodeChar_length_pos (c : Char) : 1 ≤ (encodeChar c).length := by
  unfold encodeChar
  repeat' split
  all_goals simp

theorem length_le_encodeChars (s : List Char) : s.length ≤ (encodeChars s).length := by
  induction s with
  | nil => simp [encodeChars]
  | cons c s ih =>
    have := encodeChar_length_pos c
    simp only [encodeChars, List.length_cons, List.length_append]
    omega

/-- Reading back the inside of a string literal gives the string. -/
theorem unquoteBody_encodeChars (s : List Char) (fuel : Nat) (rest : List Char)
    (h : s.length < fuel) :
    unquoteBody fuel (encodeChars s ++ chQuote :: rest) = some (s, rest) := by
  induction s generalizing fuel with
  | nil =>
    obtain ⟨f, rfl⟩ : ∃ f, fuel = f + 1 := ⟨fuel - 1, by omega⟩
    simp [encodeChars, unquoteBody]
  | cons c s ih =>
    obtain ⟨f, rfl⟩ : ∃ f, fuel = f + 1 := ⟨fuel - 1, by simp at h; omega⟩
    simp only [encodeChars, List.append_assoc]
    rw [unquoteBody_encodeChar, ih f (by simpa using h)]
    rfl

/-! #### Numbers -/

theorem scanNum_append (l : List Char) (st : NumState) (rest : List Char)
    (h : scanNum st l = some (l, [])) (hrest : EndsNumber rest) :
    scanNum st (l ++ rest) = some (l, rest) := by
  induction l generalizing st with
  | nil =>
    have hacc : st.accepting = true := by
      by_contra hc
      simp [scanNum, hc] at h
    cases rest with
    | nil => simp [scanNum, hacc]
    | cons c cs => simp [scanNum, hrest c cs rfl st, hacc]
  | cons c cs ih =>
    simp only [scanNum] at h
    cases hs : numStep st c with
    | none =>
      simp only [hs] at h
      split at h <;> simp at h
    | some st2 =>
      simp only [hs, Option.map_eq_some', Prod.mk.injEq, List.cons.injEq, true_and,
        Prod.exists] at h
      obtain ⟨a, b, hscan, ha, hb⟩ := h
      subst ha hb
      simp [scanNum, hs, ih st2 hscan]

theorem numStep_begin (c : Char) (st : NumState) (h : numStep .begin c = some st) :
    c.toNat = 45 ∨ (48 ≤ c.toNat ∧ c.toNat ≤ 57) := by
  simp only [numStep] at h
  by_contra hc
  have h1 : ¬ c.toNat = 45 := by omega
  have h2 : ¬ c.toNat = 48 := by omega
  have h3 : ¬ (49 ≤ c.toNat ∧ c.toNat ≤ 57) := by omega
  simp [h1, h2, h3] at h

theorem scanNum_begin_head (l : List Char) (h : scanNum .begin l = some (l, [])) :
    ∃ c t, l = c :: t ∧ (c.toNat = 45 ∨ (48 ≤ c.toNat ∧ c.toNat ≤ 57)) := by
  cases l with
  | nil => simp [scanNum, NumState.accepting] at h
  | cons c t =>
    refine ⟨c, t, rfl, ?_⟩
    simp only [scanNum] at h
    cases hs : numStep .begin c with
    | none => simp [hs, NumState.accepting] at h
    | some st => exact numStep_begin c st hs

theorem endsNumber_of_delimiter (c : Char) (cs : List Char)
    (h : c.toNat = 44 ∨ c.toNat = 93 ∨ c.toNat = 125) : EndsNumber (c :: cs) := by
  intro c2 cs2 heq st
  simp only [List.cons.injEq] at heq
  obtain ⟨rfl, _⟩ := heq
  have h1 : ¬ (48 ≤ c.toNat ∧ c.toNat ≤ 57) := by omega
  have h2 : ¬ (49 ≤ c.toNat ∧ c.toNat ≤ 57) := by omega
  have h3 : ¬ c.toNat = 45 := by omega
  have h4 : ¬ c.toNat = 48 := by omega
  have h5 : ¬ c.toNat = 46 := by omega
  have h6 : ¬ c.toNat = 101 := by omega
  have h7 : ¬ c.toNat = 69 := by omega
  have h8 : ¬ c.toNat = 43 := by omega
  cases st <;> simp [numStep, h1, h2, h3, h4, h5, h6, h7, h8]

theorem endsNumber_nil : EndsNumber [] := by
  intro c cs h; cases h

/-! #### Values -/

theorem keyLt_irrefl (a : List Char) : keyLt a a = false := by
  induction a with
  | nil => rfl
  | cons c cs ih => simp [keyLt, ih]

theorem keyLt_asymm (a b : List Char) (h : keyLt a b = true) : keyLt b a = false := by
  induction a generalizing b with
  | nil => cases b <;> simp_all [keyLt]
  | cons c cs ih =>
    cases b with
    | nil => simp [keyLt] at h
    | cons d ds =>
      simp only [keyLt] at h ⊢
      rcases Nat.lt_trichotomy c.toNat d.toNat with hlt | heq | hgt
      · have h2 : ¬ d.toNat < c.toNat := by omega
        have h3 : ¬ d.toNat = c.toNat := by omega
        simp [h2, h3]
      · rw [heq] at h ⊢
        simp only [Nat.lt_irrefl, ↓reduceIte] at h ⊢
        exact ih ds h
      · have h2 : ¬ c.toNat < d.toNat := by omega
        have h3 : ¬ c.toNat = d.toNat := by omega
        simp [h2, h3] at h

theorem keyLt_trans (a b c : List Char) (h1 : keyLt a b = true) (h2 : keyLt b c = true) :
    keyLt a c = true := by
  induction a generalizing b c with
  | nil =>
    cases b with
    | nil => simp [keyLt] at h1
    | cons y ys =>
      cases c with
      | nil => simp [keyLt] at h2
      | cons z zs => rfl
  | cons x xs ih =>
    cases b with
    | nil => simp [keyLt] at h1
    | cons y ys =>
      cases c with
      | nil => simp [keyLt] at h2
      | cons z zs =>
        simp only [keyLt] at h1 h2 ⊢
        rcases Nat.lt_trichotomy x.toNat y.toNat with hxy | hxy | hxy
        · rcases Nat.lt_trichotomy y.toNat z.toNat with hyz | hyz | hyz
          · simp [show x.toNat < z.toNat by omega]
          · simp [show x.toNat < z.toNat by omega]
          · simp [show ¬ y.toNat < z.toNat by omega, show ¬ y.toNat = z.toNat by omega] at h2
        · rw [hxy] at h1 ⊢
          simp only [Nat.lt_irrefl, ↓reduceIte] at h1
          rcases Nat.lt_trichotomy y.toNat z.toNat with hyz | hyz | hyz
          · simp [hyz]
          · rw [hyz] at h2 ⊢
            simp only [Nat.lt_irrefl, ↓reduceIte] at h2 ⊢
            exact ih ys zs h1 h2
          · simp [show ¬ y.toNat < z.toNat by omega, show ¬ y.toNat = z.toNat by omega] at h2
        · simp [show ¬ x.toNat < y.toNat by omega, show ¬ x.toNat = y.toNat by omega] at h1

theorem mapInsert_last {N : Type} (k : String) (v : JVal N) (acc : List (String × JVal N))
    (h : ∀ p ∈ acc, keyLt p.1.data k.data = true) : mapInsert k v acc = acc ++ [(k, v)] := by
  induction acc with
  | nil => rfl
  | cons p acc ih =>
    obtain ⟨k2, v2⟩ := p
    have hlt : keyLt k2.data k.data = true := h (k2, v2) (by simp)
    have hne : ¬ k = k2 := by
      intro he
      subst he
      rw [keyLt_irrefl] at hlt
      cases hlt
    have hnlt : keyLt k.data k2.data = false := keyLt_asymm _ _ hlt
    simp only [mapInsert, hne, hnlt, ↓reduceIte, Bool.false_eq_true, List.cons_append,
      List.cons.injEq, true_and]
    exact ih (fun p hp => h p (by simp [hp]))

theorem foldl_mapInsert {N : Type} (ms acc : List (String × JVal N)) (k : String)
    (hacc : ∀ p ∈ acc, keyLt p.1.data k.data = true ∨ p.1 = k)
    (hms : JVal.canonicalMembers k ms = true) :
    ms.foldl (fun m p => mapInsert p.1 p.2 m) acc = acc ++ ms := by
  induction ms generalizing acc k with
  | nil => simp
  | cons p ms ih =>
    obtain ⟨k2, v2⟩ := p
    simp only [JVal.canonicalMembers, Bool.and_eq_true] at hms
    obtain ⟨hlt, _, hrest⟩ := hms
    have hall : ∀ p ∈ acc, keyLt p.1.data k2.data = true := by
      intro p hp
      rcases hacc p hp with h | h
      · exact keyLt_trans _ _ _ h hlt
      · rw [h]; exact hlt
    simp only [List.foldl_cons]
    rw [mapInsert_last k2 v2 acc hall]
    rw [ih (acc ++ [(k2, v2)]) k2 ?_ hrest]
    · simp
    · intro p hp
      simp only [List.mem_append, List.mem_singleton] at hp
      rcases hp with hp | hp
      · exact Or.inl (hall p hp)
      · subst hp; exact Or.inr rfl

theorem buildMap_canonical {N : Type} (k : String) (x : JVal N) (ms : List (String × JVal N))
    (h : JVal.canonicalMembers k ms = true) : buildMap ((k, x) :: ms) = (k, x) :: ms := by
  simp only [buildMap, List.foldl_cons, mapInsert]
  exact foldl_mapInsert ms [(k, x)] k (by simp) h

section RoundTrip
variable {N : Type} [GoFloat N]

theorem skipSpace_cons (c : Char) (cs : List Char) (h : isSpace c = false) :
    skipSpace (c :: cs) = c :: cs := by
  simp [skipSpace, h]

theorem startsValue_of_number (c : Char)
    (h : c.toNat = 45 ∨ (48 ≤ c.toNat ∧ c.toNat ≤ 57)) : StartsValue c := by
  refine ⟨?_, ?_, ?_⟩
  · simp only [isSpace, Bool.or_eq_false_iff, beq_eq_false_iff_ne, ne_eq]
    omega
  · intro hc; subst hc; exact absurd h (by decide)
  · intro hc; subst hc; exact absurd h (by decide)

theorem encode_head (hlaw : GoFloat.Lawful N) (v : JVal N) :
    ∃ c t, v.encode = c :: t ∧ StartsValue c := by
  cases v with
  | null => exact ⟨'n', _, rfl, by decide, by decide, by decide⟩
  | bool b => cases b
              · exact ⟨'f', _, rfl, by decide, by decide, by decide⟩
              · exact ⟨'t', _, rfl, by decide, by decide, by decide⟩
  | num n =>
    obtain ⟨c, t, hl, hc⟩ := scanNum_begin_head _ (hlaw n).1
    exact ⟨c, t, by simpa [JVal.encode] using hl, startsValue_of_number c hc⟩
  | str s => exact ⟨chQuote, _, rfl, by decide, by decide, by decide⟩
  | arr xs => cases xs with
    | nil => exact ⟨'[', _, rfl, by decide, by decide, by decide⟩
    | cons x xs =>
      exact ⟨'[', x.encode ++ (JVal.encodeTail xs ++ [']']), by simp [JVal.encode],
        by decide, by decide, by decide⟩
  | obj ms => cases ms with
    | nil => exact ⟨chLBrace, _, rfl, by decide, by decide, by decide⟩
    | cons p ms =>
      obtain ⟨k, x⟩ := p
      exact ⟨chLBrace,
        encodeString k ++ ':' :: (x.encode ++ (JVal.encodeMembersTail ms ++ [chRBrace])),
        by simp [JVal.encode], by decide, by decide, by decide⟩

theorem parseValue_num (hlaw : GoFloat.Lawful N) (n : N) (fuel depth : Nat)
    (rest : List Char) (hrest : EndsNumber rest) :
    parseValue (fuel + 1) depth (GoFloat.format n ++ rest) = some (JVal.num n, rest) := by
  obtain ⟨hscan, hparse⟩ := hlaw n
  obtain ⟨c, t, hl, hc⟩ := scanNum_begin_head _ hscan
  have hfull := scanNum_append _ _ rest hscan hrest
  rw [hl] at hfull ⊢
  have e1 : ¬ c = chQuote := by intro h; subst h; exact absurd hc (by decide)
  have e2 : ¬ c = '[' := by intro h; subst h; exact absurd hc (by decide)
  have e3 : ¬ c = chLBrace := by intro h; subst h; exact absurd hc (by decide)
  have e4 : ¬ c = 'n' := by intro h; subst h; exact absurd hc (by decide)
  have e5 : ¬ c = 't' := by intro h; subst h; exact absurd hc (by decide)
  have e6 : ¬ c = 'f' := by intro h; subst h; exact absurd hc (by decide)
  simp only [List.cons_append] at hfull ⊢
  simp only [parseValue, e1, e2, e3, e4, e5, e6, ↓reduceIte, hfull]
  rw [← hl, hparse]
  rfl

theorem endsNumber_encodeTail (xs : List (JVal N)) (rest : List Char) :
    EndsNumber (JVal.encodeTail xs ++ ']' :: rest) := by
  cases xs with
  | nil => exact endsNumber_of_delimiter _ _ (by decide)
  | cons x xs => exact endsNumber_of_delimiter _ _ (by decide)

theorem endsNumber_encodeMembersTail (ms : List (String × JVal N)) (rest : List Char) :
    EndsNumber (JVal.encodeMembersTail ms ++ chRBrace :: rest) := by
  cases ms with
  | nil => exact endsNumber_of_delimiter _ _ (by decide)
  | cons p ms =>
    obtain ⟨k, x⟩ := p
    exact endsNumber_of_delimiter _ _ (by decide)

theorem encodeString_length (s : String) :
    (encodeString s).length = (encodeChars s.data).length + 2 := by
  simp [encodeString]

end RoundTrip

section RoundTripValues
variable {N : Type} [GoFloat N]

theorem parseValue_array (f d : Nat) (c : Char) (cs : List Char)
    (hs : isSpace c = false) (hc : c ≠ ']') :
    (parseValue (f + 1) (d + 1) ('[' :: c :: cs) : Option (JVal N × List Char))
      = match parseValue f d (c :: cs) with
        | none => none
        | some (v, rest) =>
          (parseTail f d (skipSpace rest)).map (fun p => (JVal.arr (v :: p.1), p.2)) := by
  have q1 : ¬ ('[' : Char) = chQuote := by decide
  simp only [parseValue, q1, ↓reduceIte, skipSpace_cons c cs hs, hc]

theorem parseValue_object (f d : Nat) (c : Char) (cs : List Char)
    (hs : isSpace c = false) (hc : c ≠ chRBrace) :
    (parseValue (f + 1) (d + 1) (chLBrace :: c :: cs) : Option (JVal N × List Char))
      = (parseMembers f d (c :: cs)).map (fun p => (JVal.obj (buildMap p.1), p.2)) := by
  have q1 : ¬ chLBrace = chQuote := by decide
  have q2 : ¬ chLBrace = '[' := by decide
  simp only [parseValue, q1, q2, ↓reduceIte, skipSpace_cons c cs hs, hc]

theorem parseTail_comma (f d : Nat) (c : Char) (cs : List Char) (hs : isSpace c = false) :
    (parseTail (f + 1) d (',' :: c :: cs) : Option (List (JVal N) × List Char))
      = match parseValue f d (c :: cs) with
        | none => none
        | some (v, rest) => (parseTail f d (skipSpace rest)).map (fun p => (v :: p.1, p.2)) := by
  have q1 : ¬ (',' : Char) = ']' := by decide
  simp only [parseTail, q1, ↓reduceIte, skipSpace_cons c cs hs]

theorem skipSpace_encodeTail (xs : List (JVal N)) (rest : List Char) :
    skipSpace (JVal.encodeTail xs ++ ']' :: rest) = JVal.encodeTail xs ++ ']' :: rest := by
  cases xs with
  | nil => exact skipSpace_cons _ _ (by decide)
  | cons x xs => exact skipSpace_cons _ _ (by decide)

theorem skipSpace_encodeMembersTail (ms : List (String × JVal N)) (rest : List Char) :
    skipSpace (JVal.encodeMembersTail ms ++ chRBrace :: rest)
      = JVal.encodeMembersTail ms ++ chRBrace :: rest := by
  cases ms with
  | nil => exact skipSpace_cons _ _ (by decide)
  | cons p ms =>
    obtain ⟨k, x⟩ := p
    exact skipSpace_cons _ _ (by decide)

/-- One entry read by `parseMembers`: the key, the colon, the value, and then the closing
brace or a comma and the entries that follow. -/
theorem parseMembers_entry (hlaw : GoFloat.Lawful N) (k : String) (x : JVal N) (f d : Nat)
    (after : List Char) (hk : k.data.length < f)
    (hx : parseValue f d (x.encode ++ after) = some (x, after))
    (hafter : skipSpace after = after) :
    (parseMembers (f + 1) d (encodeString k ++ ':' :: (x.encode ++ after))
        : Option (List (String × JVal N) × List Char))
      = match after with
        | [] => none
        | c3 :: cs3 =>
          if c3 = chRBrace then some ([(k, x)], cs3)
          else if c3 = ',' then
            (parseMembers f d (skipSpace cs3)).map (fun p => ((k, x) :: p.1, p.2))
          else none := by
  obtain ⟨c, t, hhead, hs1, _, _⟩ := encode_head hlaw x
  have hkey := unquoteBody_encodeChars k.data f (':' :: (x.encode ++ after)) hk
  have hcolon : skipSpace (':' :: (x.encode ++ after)) = ':' :: (x.encode ++ after) :=
    skipSpace_cons _ _ (by decide)
  have hval : skipSpace (x.encode ++ after) = x.encode ++ after := by
    rw [hhead]; exact skipSpace_cons _ _ hs1
  simp only [encodeString, List.cons_append, List.append_assoc, List.singleton_append,
    List.nil_append]
  simp only [parseMembers, ↓reduceIte, hkey, hcolon, hval, hx, hafter]
  cases after with
  | nil => rfl
  | cons c3 cs3 => rfl

mutual
/-- Reading back an encoded value gives the value, when the turns and the nesting allowed
suffice and the value is canonical. -/
theorem parseValue_encode (hlaw : GoFloat.Lawful N) :
    ∀ (v : JVal N) (fuel depth : Nat) (rest : List Char),
      v.encode.length < fuel → v.depth ≤ depth → v.canonical = true → EndsNumber rest →
      parseValue fuel depth (v.encode ++ rest) = some (v, rest)
  | .null, fuel, depth, rest, hf, _, _, _ => by
    obtain ⟨f, rfl⟩ : ∃ f, fuel = f + 1 := ⟨fuel - 1, by simp [JVal.encode] at hf; omega⟩
    rfl
  | .bool true, fuel, depth, rest, hf, _, _, _ => by
    obtain ⟨f, rfl⟩ : ∃ f, fuel = f + 1 := ⟨fuel - 1, by simp [JVal.encode] at hf; omega⟩
    rfl
  | .bool false, fuel, depth, rest, hf, _, _, _ => by
    obtain ⟨f, rfl⟩ : ∃ f, fuel = f + 1 := ⟨fuel - 1, by simp [JVal.encode] at hf; omega⟩
    rfl
  | .num n, fuel, depth, rest, hf, _, _, hrest => by
    obtain ⟨f, rfl⟩ : ∃ f, fuel = f + 1 := ⟨fuel - 1, by omega⟩
    simpa [JVal.encode] using parseValue_num hlaw n f depth rest hrest
  | .str s, fuel, depth, rest, hf, _, _, _ => by
    obtain ⟨f, rfl⟩ : ∃ f, fuel = f + 1 := ⟨fuel - 1, by omega⟩
    have hlen : s.data.length < f := by
      have := length_le_encodeChars s.data
      simp only [JVal.encode, encodeString_length] at hf
      omega
    have := unquoteBody_encodeChars s.data f rest hlen
    simp only [JVal.encode, encodeString, List.cons_append, List.append_assoc,
      List.singleton_append, List.nil_append]
    simp only [parseValue, ↓reduceIte, this]
    rfl
  | .arr [], fuel, depth, rest, hf, hd, _, _ => by
    obtain ⟨f, rfl⟩ : ∃ f, fuel = f + 1 := ⟨fuel - 1, by omega⟩
    obtain ⟨d, rfl⟩ : ∃ d, depth = d + 1 := ⟨depth - 1, by simp [JVal.depth] at hd; omega⟩
    rfl
  | .arr (x :: xs), fuel, depth, rest, hf, hd, hc, _ => by
    obtain ⟨f, rfl⟩ : ∃ f, fuel = f + 1 := ⟨fuel - 1, by omega⟩
    obtain ⟨d, rfl⟩ : ∃ d, depth = d + 1 := ⟨depth - 1, by simp [JVal.depth] at hd; omega⟩
    simp only [JVal.encode, List.length_cons, List.length_append, List.length_singleton] at hf
    simp only [JVal.depth, JVal.depthList] at hd
    simp only [JVal.canonical, JVal.canonicalList, Bool.and_eq_true] at hc
    obtain ⟨c, t, hhead, hs1, hs2, _⟩ := encode_head hlaw x
    have hx := parseValue_encode hlaw x f d (JVal.encodeTail xs ++ ']' :: rest)
      (by omega) (by omega) hc.1 (endsNumber_encodeTail xs rest)
    have hxs := parseTail_encode hlaw xs f d rest (by omega) (by omega) hc.2
    simp only [JVal.encode, List.cons_append, List.append_assoc, List.singleton_append,
      List.nil_append]
    rw [hhead] at hx ⊢
    simp only [List.cons_append] at hx ⊢
    rw [parseValue_array f d c _ hs1 hs2, hx]
    simp only [skipSpace_encodeTail, hxs]
    rfl
  | .obj [], fuel, depth, rest, hf, hd, _, _ => by
    obtain ⟨f, rfl⟩ : ∃ f, fuel = f + 1 := ⟨fuel - 1, by omega⟩
    obtain ⟨d, rfl⟩ : ∃ d, depth = d + 1 := ⟨depth - 1, by simp [JVal.depth] at hd; omega⟩
    rfl
  | .obj ((k, x) :: ms), fuel, depth, rest, hf, hd, hc, _ => by
    obtain ⟨f, rfl⟩ : ∃ f, fuel = f + 1 := ⟨fuel - 1, by omega⟩
    obtain ⟨d, rfl⟩ : ∃ d, depth = d + 1 := ⟨depth - 1, by simp [JVal.depth] at hd; omega⟩
    simp only [JVal.encode, List.length_cons, List.length_append, List.length_singleton] at hf
    simp only [JVal.depth, JVal.depthMembers] at hd
    simp only [JVal.canonical, Bool.and_eq_true] at hc
    have hms := parseMembers_encode hlaw k x ms f d rest (by omega) (by omega) hc.1 hc.2
    simp only [JVal.encode, List.cons_append, List.append_assoc, List.singleton_append,
      List.nil_append]
    have hq : encodeString k ++ ':' :: (x.encode ++ (JVal.encodeMembersTail ms ++ chRBrace :: rest))
        = chQuote :: (encodeChars k.data ++ chQuote :: ':' ::
            (x.encode ++ (JVal.encodeMembersTail ms ++ chRBrace :: rest))) := by
      simp [encodeString]
    rw [hq] at hms ⊢
    rw [parseValue_object f d chQuote _ (by decide) (by decide), hms]
    simp only [Option.map_some', buildMap_canonical k x ms hc.2]
termination_by v => sizeOf v
decreasing_by all_goals (simp_wf; try omega)
/-- Reading back the elements after the first gives them. -/
theorem parseTail_encode (hlaw : GoFloat.Lawful N) :
    ∀ (xs : List (JVal N)) (fuel depth : Nat) (rest : List Char),
      (JVal.encodeTail xs).length < fuel → JVal.depthList xs ≤ depth →
      JVal.canonicalList xs = true →
      parseTail fuel depth (JVal.encodeTail xs ++ ']' :: rest) = some (xs, rest)
  | [], fuel, depth, rest, hf, _, _ => by
    obtain ⟨f, rfl⟩ : ∃ f, fuel = f + 1 := ⟨fuel - 1, by omega⟩
    rfl
  | x :: xs, fuel, depth, rest, hf, hd, hc => by
    obtain ⟨f, rfl⟩ : ∃ f, fuel = f + 1 := ⟨fuel - 1, by omega⟩
    simp only [JVal.encodeTail, List.length_cons, List.length_append] at hf
    simp only [JVal.depthList] at hd
    simp only [JVal.canonicalList, Bool.and_eq_true] at hc
    obtain ⟨c, t, hhead, hs1, _, _⟩ := encode_head hlaw x
    have hx := parseValue_encode hlaw x f depth (JVal.encodeTail xs ++ ']' :: rest)
      (by omega) (by omega) hc.1 (endsNumber_encodeTail xs rest)
    have hxs := parseTail_encode hlaw xs f depth rest (by omega) (by omega) hc.2
    simp only [JVal.encodeTail, List.cons_append, List.append_assoc]
    rw [hhead] at hx ⊢
    simp only [List.cons_append] at hx ⊢
    rw [parseTail_comma f depth c _ hs1, hx]
    simp only [skipSpace_encodeTail, hxs]
    rfl
termination_by xs => sizeOf xs
decreasing_by all_goals (simp_wf; try omega)
/-- Reading back the entries of a map, from a key on, gives them. -/
theorem parseMembers_encode (hlaw : GoFloat.Lawful N) :
    ∀ (k : String) (x : JVal N) (ms : List (String × JVal N)) (fuel depth : Nat)
      (rest : List Char),
      (encodeString k).length + 1 + x.encode.length + (JVal.encodeMembersTail ms).length < fuel →
      max x.depth (JVal.depthMembers ms) ≤ depth →
      x.canonical = true → JVal.canonicalMembers k ms = true →
      parseMembers fuel depth
        (encodeString k ++ ':' :: (x.encode ++ (JVal.encodeMembersTail ms ++ chRBrace :: rest)))
        = some ((k, x) :: ms, rest)
  | k, x, [], fuel, depth, rest, hf, hd, hcx, _ => by
    obtain ⟨f, rfl⟩ : ∃ f, fuel = f + 1 := ⟨fuel - 1, by omega⟩
    have hklen := length_le_encodeChars k.data
    simp only [encodeString_length, JVal.encodeMembersTail, List.length_nil] at hf
    simp only [JVal.depthMembers] at hd
    have hx := parseValue_encode hlaw x f depth (chRBrace :: rest) (by omega) (by omega) hcx
      (endsNumber_of_delimiter _ _ (by decide))
    rw [show JVal.encodeMembersTail ([] : List (String × JVal N)) ++ chRBrace :: rest
      = chRBrace :: rest from rfl]
    rw [parseMembers_entry hlaw k x f depth _ (by omega) hx (skipSpace_cons _ _ (by decide))]
    rfl
  | k, x, (k2, x2) :: ms, fuel, depth, rest, hf, hd, hcx, hcm => by
    obtain ⟨f, rfl⟩ : ∃ f, fuel = f + 1 := ⟨fuel - 1, by omega⟩
    have hklen := length_le_encodeChars k.data
    simp only [encodeString_length, JVal.encodeMembersTail, List.length_cons,
      List.length_append] at hf
    simp only [JVal.depthMembers] at hd
    simp only [JVal.canonicalMembers, Bool.and_eq_true] at hcm
    have hx := parseValue_encode hlaw x f depth
      (JVal.encodeMembersTail ((k2, x2) :: ms) ++ chRBrace :: rest) (by omega) (by omega) hcx
      (endsNumber_encodeMembersTail _ rest)
    have hrec := parseMembers_encode hlaw k2 x2 ms f depth rest
      (by simp only [encodeString_length]; omega) (by omega) hcm.2.1 hcm.2.2
    rw [parseMembers_entry hlaw k x f depth _ (by omega) hx
      (skipSpace_encodeMembersTail _ rest)]
    simp only [JVal.encodeMembersTail, List.cons_append, List.append_assoc]
    have q1 : ¬ (',' : Char) = chRBrace := by decide
    have hsk : skipSpace (encodeString k2 ++
        (':' :: (x2.encode ++ (JVal.encodeMembersTail ms ++ chRBrace :: rest))))
        = encodeString k2 ++
          (':' :: (x2.encode ++ (JVal.encodeMembersTail ms ++ chRBrace :: rest))) := by
      simp only [encodeString, List.cons_append]
      exact skipSpace_cons _ _ (by decide)
    simp only [q1, ↓reduceIte, hsk, hrec]
    rfl
termination_by _ x ms => sizeOf x + sizeOf ms
decreasing_by all_goals (simp_wf; try omega)
end

end RoundTripValues

section RoundTripTop
variable {N : Type} [GoFloat N]

/-- Decoding the text of a canonical value nested no deeper than the decoder allows gives the
value. -/
theorem unmarshal_encode (hlaw : GoFloat.Lawful N) (v : JVal N) (hc : v.canonical = true)
    (hd : v.depth ≤ maxNestingDepth) :
    (Unmarshal (String.mk v.encode) : Except GoError (JVal N)) = .ok v := by
  obtain ⟨c, t, hhead, hs1, _, _⟩ := encode_head hlaw v
  have hskip : skipSpace v.encode = v.encode := by
    rw [hhead]; exact skipSpace_cons _ _ hs1
  have hparse := parseValue_encode hlaw v (v.encode.length + 1) maxNestingDepth []
    (by omega) hd hc endsNumber_nil
  rw [List.append_nil] at hparse
  simp only [Unmarshal, hskip, hparse, skipSpace]

/-- The wire record `GetMessages` builds for a tool call. -/
theorem marshalToolCalls_eq (toolCalls : List (MessageContentToolCall N))
    (acc : List MessageToolCall) :
    marshalToolCalls toolCalls acc
      = .ok (acc ++ toolCalls.map (fun tc =>
          { Name := tc.Name, Arguments := String.mk tc.Arguments.encode,
            Result := String.mk tc.Result.encode })) := by
  induction toolCalls generalizing acc with
  | nil => simp [marshalToolCalls]
  | cons tc rest ih => simp [marshalToolCalls, Marshal, ih]

theorem unmarshalToolCalls_eq (hlaw : GoFloat.Lawful N)
    (toolCalls : List (MessageContentToolCall N)) (acc : List (MessageContentToolCall N))
    (hok : ∀ tc ∈ toolCalls,
      tc.Arguments.canonical = true ∧ tc.Arguments.depth ≤ maxNestingDepth ∧
      tc.Result.canonical = true ∧ tc.Result.depth ≤ maxNestingDepth) :
    unmarshalToolCalls (toolCalls.map (fun tc =>
        some ({ Name := tc.Name, Arguments := String.mk tc.Arguments.encode,
                Result := String.mk tc.Result.encode } : MessageToolCall))) acc
      = .ok (acc ++ toolCalls) := by
  induction toolCalls generalizing acc with
  | nil => simp [unmarshalToolCalls]
  | cons tc rest ih =>
    obtain ⟨h1, h2, h3, h4⟩ := hok tc (by simp)
    simp only [List.map_cons, unmarshalToolCalls, unmarshal_encode hlaw _ h1 h2,
      unmarshal_encode hlaw _ h3 h4]
    rw [ih _ (fun tc2 h => hok tc2 (by simp [h]))]
    simp

/-- C3, as the code has it: given that the number format of `strconv` reads back what it
writes, every tool-call value of JSON's domain whose arrays and maps are nested at most 10000
deep is marshalled without error, and unmarshalling the text gives the value back; so the
tool calls `GetMessages` writes to the wire are read back by `AddMessage` as they were, in
their arguments and in their results. -/
theorem toolCall_values_roundtrip (hlaw : GoFloat.Lawful N) :
    (∀ v : JVal N, v.canonical = true → v.depth ≤ maxNestingDepth →
      ∃ s, Marshal v = .ok s ∧ (Unmarshal s : Except GoError (JVal N)) = .ok v) ∧
    ∀ toolCalls : List (MessageContentToolCall N),
      (∀ tc ∈ toolCalls,
        tc.Arguments.canonical = true ∧ tc.Arguments.depth ≤ maxNestingDepth ∧
        tc.Result.canonical = true ∧ tc.Result.depth ≤ maxNestingDepth) →
      ∃ wire, marshalToolCalls toolCalls [] = .ok wire ∧
        (unmarshalToolCalls (wire.map some) [] :
            Except Outcome (List (MessageContentToolCall N)))
          = .ok toolCalls := by
  refine ⟨fun v hc hd => ⟨_, rfl, unmarshal_encode hlaw v hc hd⟩, ?_⟩
  intro toolCalls hok
  refine ⟨_, marshalToolCalls_eq toolCalls [], ?_⟩
  simpa [Function.comp_def] using unmarshalToolCalls_eq hlaw toolCalls [] hok

omit [GoFloat N] in
theorem nested_canonical (n : Nat) : (nested n : JVal N).canonical = true := by
  induction n with
  | zero => rfl
  | succ n ih => simp [nested, JVal.canonical, JVal.canonicalList, ih]

omit [GoFloat N] in
theorem nested_depth (n : Nat) : (nested n : JVal N).depth = n := by
  induction n with
  | zero => rfl
  | succ n ih => simp [nested, JVal.depth, JVal.depthList, ih]

theorem nested_head (n : Nat) :
    ∃ c t, (nested n : JVal N).encode = c :: t ∧ isSpace c = false ∧ c ≠ ']' := by
  cases n with
  | zero => exact ⟨'n', _, rfl, by decide, by decide⟩
  | succ n =>
    exact ⟨'[', (nested n : JVal N).encode ++ (JVal.encodeTail ([] : List (JVal N)) ++ [']']),
      by rw [nested, JVal.encode], by decide, by decide⟩

/-- The decoder gives up on arrays nested deeper than it allows. -/
theorem parseValue_nested (n : Nat) :
    ∀ (fuel depth : Nat) (rest : List Char), depth < n →
      (parseValue fuel depth ((nested n : JVal N).encode ++ rest)
        : Option (JVal N × List Char)) = none := by
  induction n with
  | zero => intro fuel depth rest h; omega
  | succ n ih =>
    intro fuel depth rest h
    cases fuel with
    | zero => rfl
    | succ f =>
      obtain ⟨c, t, hhead, hs1, hs2⟩ := nested_head (N := N) n
      cases depth with
      | zero =>
        have q1 : ¬ ('[' : Char) = chQuote := by decide
        simp [nested, JVal.encode, parseValue, q1]
      | succ d =>
        have hrec := ih f d (JVal.encodeTail ([] : List (JVal N)) ++ ']' :: rest) (by omega)
        simp only [nested, JVal.encode, List.cons_append, List.append_assoc,
          List.singleton_append, List.nil_append]
        rw [hhead] at hrec ⊢
        simp only [List.cons_append] at hrec ⊢
        rw [parseValue_array f d c _ hs1 hs2]
        simp only [JVal.encodeTail, List.nil_append] at hrec
        simp only [JVal.encodeTail, List.nil_append, hrec]

/-- Decoding the text of `null` inside more arrays than the decoder allows fails. -/
theorem unmarshal_nested (n : Nat) (h : maxNestingDepth < n) :
    (Unmarshal (String.mk (nested n : JVal N).encode) : Except GoError (JVal N))
      = .error (GoError.leaf "json: cannot unmarshal") := by
  obtain ⟨c, t, hhead, hs1, _⟩ := nested_head (N := N) n
  have hskip : skipSpace (nested n : JVal N).encode = (nested n : JVal N).encode := by
    rw [hhead]; exact skipSpace_cons _ _ hs1
  have hfail := parseValue_nested (N := N) n
    ((nested n : JVal N).encode.length + 1) maxNestingDepth [] h
  rw [List.append_nil] at hfail
  simp only [Unmarshal, hskip, hfail]

theorem marshal_eq (v : JVal N) : Marshal v = .ok (String.mk v.encode) := rfl

end RoundTripTop

/-! #### The decimal number format -/

theorem isDigit_ofNat (n : Nat) (h : n < 10) :
    (Char.ofNat (48 + n)).toNat = 48 + n ∧ isDigit (Char.ofNat (48 + n)) = true := by
  have := toNat_ofNat_of_lt (48 + n) (by omega)
  refine ⟨this, ?_⟩
  simp only [isDigit, this, decide_eq_true_eq]
  omega

theorem decimalDigits_value (fuel : Nat) :
    ∀ (n : Nat) (acc : List Char), n < fuel →
      (decimalDigits fuel n acc).foldl (fun a c => 10 * a + (c.toNat - 48)) 0
        = acc.foldl (fun a c => 10 * a + (c.toNat - 48)) n := by
  induction fuel with
  | zero => intro n acc h; omega
  | succ fuel ih =>
    intro n acc h
    simp only [decimalDigits]
    split
    · rename_i hlt
      simp [(isDigit_ofNat n hlt).1]
    · rename_i hge
      rw [ih (n / 10) _ (by omega)]
      simp only [List.foldl_cons, (isDigit_ofNat (n % 10) (Nat.mod_lt _ (by decide))).1]
      congr 1
      omega

theorem decimalDigits_all (fuel : Nat) :
    ∀ (n : Nat) (acc : List Char), n < fuel → acc.all isDigit = true →
      (decimalDigits fuel n acc).all isDigit = true ∧ decimalDigits fuel n acc ≠ [] := by
  induction fuel with
  | zero => intro n acc h; omega
  | succ fuel ih =>
    intro n acc h hacc
    simp only [decimalDigits]
    split
    · rename_i hlt
      simp [(isDigit_ofNat n hlt).2, hacc]
    · rename_i hge
      exact ih (n / 10) _ (by omega)
        (by simp [(isDigit_ofNat (n % 10) (Nat.mod_lt _ (by decide))).2, hacc])

theorem scanNum_int_digits (ds : List Char) (h : ds.all isDigit = true) :
    scanNum .int ds = some (ds, []) := by
  induction ds with
  | nil => rfl
  | cons d ds ih =>
    simp only [List.all_cons, Bool.and_eq_true] at h
    have hd : 48 ≤ d.toNat ∧ d.toNat ≤ 57 := by simpa [isDigit] using h.1
    simp [scanNum, numStep, hd, ih h.2]

theorem decimalDigits_scan (fuel : Nat) :
    ∀ (n : Nat) (acc : List Char), n < fuel → (0 < n ∨ acc = []) → acc.all isDigit = true →
      scanNum .begin (decimalDigits fuel n acc) = some (decimalDigits fuel n acc, []) := by
  induction fuel with
  | zero => intro n acc h; omega
  | succ fuel ih =>
    intro n acc h hn hacc
    simp only [decimalDigits]
    split
    · rename_i hlt
      have hto := (isDigit_ofNat n hlt).1
      by_cases hz : n = 0
      · subst hz
        have : acc = [] := by rcases hn with h0 | h0; · omega
                              · exact h0
        subst this
        rfl
      · have h1 : ¬ (48 + n = 45) := by omega
        have h2 : ¬ (48 + n = 48) := by omega
        have h3 : 49 ≤ 48 + n ∧ 48 + n ≤ 57 := by omega
        simp [scanNum, numStep, hto, h1, h2, h3, scanNum_int_digits acc hacc]
    · rename_i hge
      exact ih (n / 10) _ (by omega) (Or.inl (by omega))
        (by simp [(isDigit_ofNat (n % 10) (Nat.mod_lt _ (by decide))).2, hacc])

/-- The decimal format of the natural numbers reads back what it writes. -/
theorem natFloat_lawful : GoFloat.Lawful Nat := by
  intro n
  have hall := decimalDigits_all (n + 1) n [] (by omega) rfl
  refine ⟨decimalDigits_scan (n + 1) n [] (by omega) (Or.inr rfl) rfl, ?_⟩
  show (if decimalDigits (n + 1) n [] ≠ [] ∧ (decimalDigits (n + 1) n []).all isDigit = true
    then some (decimalValue (decimalDigits (n + 1) n [])) else none) = some n
  rw [if_pos ⟨hall.2, hall.1⟩]
  simp only [decimalValue, decimalDigits_value (n + 1) n [] (by omega), List.foldl_nil]

/-- C3, witness: with the decimal format of the natural numbers, the arguments and the result
of a tool call written by `GetMessages` are read back by `AddMessage` as they were. -/
theorem toolCall_values_roundtrip_witness :
    GoFloat.Lawful Nat ∧
    (∃ s, Marshal sampleArguments = .ok s ∧
      (Unmarshal s : Except GoError (JVal Nat)) = .ok sampleArguments) ∧
    ∃ wire, marshalToolCalls [sampleToolCall] [] = .ok wire ∧
      (unmarshalToolCalls (wire.map some) [] :
          Except Outcome (List (MessageContentToolCall Nat)))
        = .ok [sampleToolCall] :=
  ⟨natFloat_lawful,
    (toolCall_values_roundtrip natFloat_lawful).1 sampleArguments (by decide) (by decide),
    (toolCall_values_roundtrip natFloat_lawful).2 [sampleToolCall] (by
      intro tc htc
      simp only [List.mem_singleton] at htc
      subst htc
      exact ⟨by decide, by decide, by decide, by decide⟩)⟩

/-- C3, as stated, fails: the value `null` inside 10001 arrays is in JSON's domain and is
marshalled, but unmarshalling its text fails, for the decoder allows 10000 nested arrays. -/
theorem toolCall_depth_counterexample :
    (nested 10001 : JVal Nat).canonical = true ∧
    (nested 10001 : JVal Nat).depth = 10001 ∧
    Marshal (nested 10001 : JVal Nat) = .ok (String.mk (nested 10001 : JVal Nat).encode) ∧
    (Unmarshal (String.mk (nested 10001 : JVal Nat).encode) : Except GoError (JVal Nat))
      = .error (GoError.leaf "json: cannot unmarshal") :=
  ⟨nested_canonical 10001, nested_depth 10001, marshal_eq _,
    unmarshal_nested 10001 (by decide)⟩

/-! ### The allowance of the decoder -/

theorem skipSpace_length (s : List Char) : (skipSpace s).length ≤ s.length := by
  induction s with
  | nil => simp [skipSpace]
  | cons c cs ih =>
    simp only [skipSpace]
    split
    · simp only [List.length_cons]; omega
    · simp

/-- What `unquoteBody` leaves is shorter than what it was given. -/
theorem unquoteBody_rest (fuel : Nat) :
    ∀ (s : List Char) (p : List Char × List Char),
      unquoteBody fuel s = some p → p.2.length < s.length := by
  induction fuel with
  | zero => intro s p h; simp [unquoteBody] at h
  | succ f ih =>
    intro s p h
    cases s with
    | nil => simp [unquoteBody] at h
    | cons c cs =>
      simp only [unquoteBody] at h
      split at h
      · cases h; simp
      · split at h
        · cases cs with
          | nil => simp at h
          | cons x rest =>
            simp only at h
            split at h
            · split at h
              · cases h
              · split at h
                · split at h
                  · split at h
                    · obtain ⟨q, hq, rfl⟩ := Option.map_eq_some'.mp h
                      have := ih _ q hq
                      simp only [List.length_drop, List.length_cons] at this ⊢
                      omega
                    · obtain ⟨q, hq, rfl⟩ := Option.map_eq_some'.mp h
                      have := ih _ q hq
                      simp only [List.length_drop, List.length_cons] at this ⊢
                      omega
                  · obtain ⟨q, hq, rfl⟩ := Option.map_eq_some'.mp h
                    have := ih _ q hq
                    simp only [List.length_drop, List.length_cons] at this ⊢
                    omega
                · obtain ⟨q, hq, rfl⟩ := Option.map_eq_some'.mp h
                  have := ih _ q hq
                  simp only [List.length_drop, List.length_cons] at this ⊢
                  omega
            · split at h
              · obtain ⟨q, hq, rfl⟩ := Option.map_eq_some'.mp h
                have := ih _ q hq
                simp only [List.length_cons] at this ⊢
                omega
              · cases h
        · split at h
          · cases h
          · obtain ⟨q, hq, rfl⟩ := Option.map_eq_some'.mp h
            have := ih _ q hq
            simp only [List.length_cons] at this ⊢
            omega

/-- A greater allowance does not change what `unquoteBody` returns once the allowance exceeds
the length of the input. -/
theorem unquoteBody_fuel (fuel : Nat) :
    ∀ (s : List Char), s.length < fuel → unquoteBody (fuel + 1) s = unquoteBody fuel s := by
  induction fuel with
  | zero => intro s h; omega
  | succ f ih =>
    intro s h
    cases s with
    | nil => rfl
    | cons c cs =>
      simp only [List.length_cons] at h
      cases cs with
      | nil =>
        obtain ⟨g, rfl⟩ : ∃ g, f = g + 1 := ⟨f - 1, by simp at h; omega⟩
        simp only [unquoteBody]
      | cons x rest =>
        simp only [List.length_cons] at h
        have h1 := ih (x :: rest) (by simp only [List.length_cons]; omega)
        have h2 := ih rest (by omega)
        have h3 := ih (rest.drop 4) (by simp only [List.length_drop]; omega)
        have h4 := ih ((rest.drop 4).drop 6) (by simp only [List.length_drop]; omega)
        rw [unquoteBody, unquoteBody]
        simp only [h1, h2, h3, h4]

theorem scanNum_rest (st : NumState) (s : List Char) (p : List Char × List Char)
    (h : scanNum st s = some p) : p.2.length ≤ s.length := by
  induction s generalizing st p with
  | nil =>
    simp only [scanNum] at h
    split at h
    · cases h; simp
    · cases h
  | cons c cs ih =>
    simp only [scanNum] at h
    split at h
    · obtain ⟨q, hq, rfl⟩ := Option.map_eq_some'.mp h
      have := ih _ q hq
      simp only [List.length_cons]
      omega
    · split at h
      · cases h; simp
      · cases h

theorem scanNum_begin_rest (s : List Char) (p : List Char × List Char)
    (h : scanNum .begin s = some p) : p.2.length < s.length := by
  cases s with
  | nil => simp [scanNum, NumState.accepting] at h
  | cons c cs =>
    simp only [scanNum] at h
    split at h
    · obtain ⟨q, hq, rfl⟩ := Option.map_eq_some'.mp h
      have := scanNum_rest _ cs q hq
      simp only [List.length_cons]
      omega
    · simp [NumState.accepting] at h

section Allowance
variable {N : Type} [GoFloat N]

/-- What the decoder leaves is shorter than what it was given. -/
theorem parse_rest (fuel : Nat) :
    (∀ (d : Nat) (s : List Char) (r : JVal N × List Char),
      parseValue fuel d s = some r → r.2.length < s.length) ∧
    (∀ (d : Nat) (s : List Char) (r : List (JVal N) × List Char),
      parseTail fuel d s = some r → r.2.length < s.length) ∧
    (∀ (d : Nat) (s : List Char) (r : List (String × JVal N) × List Char),
      parseMembers fuel d s = some r → r.2.length < s.length) := by
  induction fuel with
  | zero =>
    refine ⟨?_, ?_, ?_⟩ <;> intro d s r h
    · simp [parseValue] at h
    · simp [parseTail] at h
    · simp [parseMembers] at h
  | succ f ih =>
    obtain ⟨ihv, iht, ihm⟩ := ih
    refine ⟨?_, ?_, ?_⟩
    · intro d s r h
      cases s with
      | nil => simp [parseValue] at h
      | cons c cs =>
        have hsk := skipSpace_length cs
        simp only [parseValue] at h
        split at h
        · obtain ⟨q, hq, rfl⟩ := Option.map_eq_some'.mp h
          have := unquoteBody_rest f cs q hq
          simp only [List.length_cons]; omega
        · split at h
          · cases d with
            | zero => cases h
            | succ d1 =>
              simp only at h
              split at h
              · cases h
              · rename_i c2 cs2 hs
                rw [hs] at hsk
                simp only [List.length_cons] at hsk
                split at h
                · cases h; simp only [List.length_cons]; omega
                · split at h
                  · cases h
                  · rename_i v rest hv
                    obtain ⟨q, hq, rfl⟩ := Option.map_eq_some'.mp h
                    have h1 := ihv _ _ _ hv
                    have h2 := iht _ _ _ hq
                    have h3 := skipSpace_length rest
                    simp only [List.length_cons] at h1 ⊢
                    omega
          · split at h
            · cases d with
              | zero => cases h
              | succ d1 =>
                simp only at h
                split at h
                · cases h
                · rename_i c2 cs2 hs
                  rw [hs] at hsk
                  simp only [List.length_cons] at hsk
                  split at h
                  · cases h; simp only [List.length_cons]; omega
                  · obtain ⟨q, hq, rfl⟩ := Option.map_eq_some'.mp h
                    have h2 := ihm _ _ _ hq
                    simp only [List.length_cons] at h2 ⊢
                    omega
            · split at h
              · split at h
                · cases h; simp only [List.length_cons]; omega
                · cases h
              · split at h
                · split at h
                  · cases h; simp only [List.length_cons]; omega
                  · cases h
                · split at h
                  · split at h
                    · cases h; simp only [List.length_cons]; omega
                    · cases h
                  · split at h
                    · cases h
                    · rename_i tok rest hs
                      obtain ⟨q, hq, rfl⟩ := Option.map_eq_some'.mp h
                      exact scanNum_begin_rest _ _ hs
    · intro d s r h
      cases s with
      | nil => simp [parseTail] at h
      | cons c cs =>
        have hsk := skipSpace_length cs
        simp only [parseTail] at h
        split at h
        · cases h; simp
        · split at h
          · split at h
            · cases h
            · rename_i v rest hv
              obtain ⟨q, hq, rfl⟩ := Option.map_eq_some'.mp h
              have h1 := ihv _ _ _ hv
              have h2 := iht _ _ _ hq
              have h3 := skipSpace_length rest
              dsimp only at h1
              simp only [List.length_cons]
              omega
          · cases h
    · intro d s r h
      cases s with
      | nil => simp [parseMembers] at h
      | cons c cs =>
        simp only [parseMembers] at h
        split at h
        · split at h
          · cases h
          · rename_i key rest hk
            have h1 := unquoteBody_rest f cs _ hk
            have h2 := skipSpace_length rest
            split at h
            · cases h
            · rename_i c2 cs2 hs
              rw [hs] at h2
              split at h
              · split at h
                · cases h
                · rename_i v rest2 hv
                  have h3 := ihv _ _ _ hv
                  have h4 := skipSpace_length cs2
                  have h5 := skipSpace_length rest2
                  split at h
                  · cases h
                  · rename_i c3 cs3 hs3
                    rw [hs3] at h5
                    split at h
                    · cases h
                      simp only [List.length_cons] at *
                      omega
                    · split at h
                      · obtain ⟨q, hq, rfl⟩ := Option.map_eq_some'.mp h
                        have h6 := ihm _ _ _ hq
                        have h7 := skipSpace_length cs3
                        simp only [List.length_cons] at *
                        omega
                      · cases h
              · cases h
        · cases h

/-- A greater allowance does not change what the decoder returns once the allowance exceeds
the length of the input. -/
theorem parse_fuel (fuel : Nat) :
    (∀ (d : Nat) (s : List Char), s.length < fuel →
      (parseValue (fuel + 1) d s : Option (JVal N × List Char)) = parseValue fuel d s) ∧
    (∀ (d : Nat) (s : List Char), s.length < fuel →
      (parseTail (fuel + 1) d s : Option (List (JVal N) × List Char)) = parseTail fuel d s) ∧
    (∀ (d : Nat) (s : List Char), s.length < fuel →
      (parseMembers (fuel + 1) d s : Option (List (String × JVal N) × List Char))
        = parseMembers fuel d s) := by
  induction fuel with
  | zero => exact ⟨fun d s h => by omega, fun d s h => by omega, fun d s h => by omega⟩
  | succ f ih =>
    obtain ⟨ihv, iht, ihm⟩ := ih
    obtain ⟨rv, rt, rm⟩ := parse_rest (N := N) f
    refine ⟨?_, ?_, ?_⟩
    · intro d s h
      cases s with
      | nil => rfl
      | cons c cs =>
        simp only [List.length_cons] at h
        have hsk := skipSpace_length cs
        conv_rhs => simp only [parseValue]
        generalize hg : f + 1 = g
        conv_lhs => simp only [parseValue]
        subst hg
        rw [unquoteBody_fuel f cs (by omega)]
        cases d with
        | zero => rfl
        | succ d1 =>
          cases hs : skipSpace cs with
          | nil => rfl
          | cons c2 cs2 =>
            rw [hs] at hsk
            simp only [List.length_cons] at hsk
            have e1 := ihv d1 (c2 :: cs2) (by simp only [List.length_cons]; omega)
            have e2 := ihm d1 (c2 :: cs2) (by simp only [List.length_cons]; omega)
            simp only [e1, e2]
            cases hv : (parseValue f d1 (c2 :: cs2) : Option (JVal N × List Char)) with
            | none => rfl
            | some r =>
              obtain ⟨v, rest⟩ := r
              have h1 := rv _ _ _ hv
              have h2 := skipSpace_length rest
              simp only [List.length_cons] at h1
              have e3 := iht d1 (skipSpace rest) (by omega)
              simp only [e3]
    · intro d s h
      cases s with
      | nil => rfl
      | cons c cs =>
        simp only [List.length_cons] at h
        have hsk := skipSpace_length cs
        conv_rhs => simp only [parseTail]
        generalize hg : f + 1 = g
        conv_lhs => simp only [parseTail]
        subst hg
        have e1 := ihv d (skipSpace cs) (by omega)
        simp only [e1]
        cases hv : (parseValue f d (skipSpace cs) : Option (JVal N × List Char)) with
        | none => rfl
        | some r =>
          obtain ⟨v, rest⟩ := r
          have h1 := rv _ _ _ hv
          have h2 := skipSpace_length rest
          dsimp only at h1
          have e3 := iht d (skipSpace rest) (by omega)
          simp only [e3]
    · intro d s h
      cases s with
      | nil => rfl
      | cons c cs =>
        simp only [List.length_cons] at h
        conv_rhs => simp only [parseMembers]
        generalize hg : f + 1 = g
        conv_lhs => simp only [parseMembers]
        subst hg
        rw [unquoteBody_fuel f cs (by omega)]
        cases hk : unquoteBody f cs with
        | none => rfl
        | some p =>
          obtain ⟨key, rest⟩ := p
          have h1 := unquoteBody_rest f cs _ hk
          have h2 := skipSpace_length rest
          dsimp only at h1 ⊢
          cases hs : skipSpace rest with
          | nil => rfl
          | cons c2 cs2 =>
            rw [hs] at h2
            simp only [List.length_cons] at h2
            have h3 := skipSpace_length cs2
            have e1 := ihv d (skipSpace cs2) (by omega)
            simp only [e1]
            cases hv : (parseValue f d (skipSpace cs2) : Option (JVal N × List Char)) with
            | none => rfl
            | some r =>
              obtain ⟨v, rest2⟩ := r
              have h4 := rv _ _ _ hv
              have h5 := skipSpace_length rest2
              dsimp only at h4 ⊢
              cases hs3 : skipSpace rest2 with
              | nil => rfl
              | cons c3 cs3 =>
                rw [hs3] at h5
                simp only [List.length_cons] at h5
                have h6 := skipSpace_length cs3
                have e2 := ihm d (skipSpace cs3) (by omega)
                simp only [e2]

/-- The allowance `Unmarshal` hands to the decoder is never used up: any greater allowance
gives the same result. -/
theorem parseValue_allowance (d : Nat) (s : List Char) (k : Nat) :
    (parseValue (s.length + 1 + k) d s : Option (JVal N × List Char))
      = parseValue (s.length + 1) d s := by
  induction k with
  | zero => rfl
  | succ k ih =>
    rw [← ih]
    exact (parse_fuel (N := N) (s.length + 1 + k)).1 d s (by omega)

end Allowance

/-! ### `AddMessage` and the thread manager -/

/-- C11, where the code departs from it: the array `tool_calls` of the request holds `null` and
then a tool call whose result is the empty string, a text `json.Unmarshal` rejects. The handler
reads the arguments of the nil pointer and panics: it returns no error. The thread manager is
not called: its store still has no message, its count of calls is zero and `message_id` keeps
its zero value. Without the `null` the same tool call makes the handler return the decoding
error. -/
theorem addMessage_null_tool_call_panics :
    (Unmarshal "" : Except GoError (JVal Nat)) = .error (GoError.leaf "json: cannot unmarshal") ∧
    nullThenMalformedRequest.ToolCalls
      = [none, some { Name := "book_hotel", Arguments := "null", Result := "" }] ∧
    AddMessage specAddMessage oneThreadStore nullThenMalformedRequest emptyAddReply
      = ((Outcome.panicked, emptyAddReply), oneThreadStore) ∧
    (∀ err, (AddMessage specAddMessage oneThreadStore nullThenMalformedRequest
      emptyAddReply).1.1 ≠ Outcome.returned err) ∧
    AddMessage (countCalls specAddMessage) (oneThreadStore, 0) nullThenMalformedRequest
        emptyAddReply
      = ((Outcome.panicked, emptyAddReply), (oneThreadStore, 0)) ∧
    AddMessage (countCalls specAddMessage) (oneThreadStore, 0) secondCallMalformedRequest
        emptyAddReply
      = ((Outcome.returned (some (Wrapf (GoError.leaf "json: cannot unmarshal")
          "failed to unmarshal tool call result")), emptyAddReply), (oneThreadStore, 0)) ∧
    (AddMessage (countCalls specAddMessage) (oneThreadStore, 0) wellFormedRequest
      emptyAddReply).2.2 = 1 ∧
    (AddMessage (countCalls specAddMessage) (oneThreadStore, 0) wellFormedRequest
      emptyAddReply).1.2.MessageId = 1 := by
  refine ⟨rfl, rfl, rfl, ?_, rfl, rfl, rfl, rfl⟩
  intro err h
  have h2 : (AddMessage specAddMessage oneThreadStore nullThenMalformedRequest
      emptyAddReply).1.1 = Outcome.panicked := rfl
  rw [h2] at h
  cases h

end AgentRuntime
